import Mathlib

/-!
Shallow embedding of the adaptive Monte Carlo localization particle filter
core (`src/pf/pf.c`, with the map interface of the appended `map.h`).

C `double` values are modelled as real numbers.  The external collaborators
that are not part of this repository's sources (the GSL random number
generator, the kd-tree of `pf_kdtree.c`, the discrete and Gaussian pdf
samplers of `pf_pdf.c`, and the opaque motion/sensor/init callbacks) are
modelled as oracle parameters: a random stream is a function from draw
indices to values, the kd-tree state is the list of `(pose, weight)` pairs
inserted since the last clear, its `leaf_count` is an arbitrary function of
that list, and the cluster-label lookup of `pf_kdtree_get_cluster` (after
`pf_kdtree_cluster`) is an arbitrary function from poses to labels.
Quantifying over all oracles covers every run of the C code.

A stateful operation whose C loops can retry forever (rejection sampling
against the map) or abort (a failed `assert`) is embedded as a fuelled
function returning `Option`: `some` exactly models the runs that return.
-/

open scoped Classical

/-- Pose vector (x, y, theta): `pf_vector_t` with `v[0..2]`. -/
structure pf_vector where
  v0 : ℝ
  v1 : ℝ
  v2 : ℝ

instance : Inhabited pf_vector := ⟨⟨0, 0, 0⟩⟩

/-- 3x3 matrix: `pf_matrix_t` with `m[3][3]`. -/
structure pf_matrix where
  m : Fin 3 → Fin 3 → ℝ

/-- `pf_vector_zero()`. -/
def pf_vector_zero : pf_vector := ⟨0, 0, 0⟩

/-- `pf_matrix_zero()`. -/
def pf_matrix_zero : pf_matrix := ⟨fun _ _ => 0⟩

/-- One sample: `pf_sample_t` (pose and importance weight). -/
structure pf_sample where
  pose : pf_vector
  weight : ℝ

instance : Inhabited pf_sample := ⟨⟨default, 0⟩⟩

/-- One cluster record: `pf_cluster_t` (count, weight, mean, covariance and
the running accumulators `m[4]`, `c[2][2]`). -/
structure pf_cluster where
  count : ℤ
  weight : ℝ
  mean : pf_vector
  cov : pf_matrix
  m : Fin 4 → ℝ
  c : Fin 2 → Fin 2 → ℝ

/-- A sample set: `pf_sample_set_t`.  `samples` is the list of live samples
(its length is the C `sample_count`); `kdtree` is the histogram state,
recorded as the inserts since the last `pf_kdtree_clear` (newest first);
`clusters` models the cluster table memory around the `clusters` pointer,
indexed as C pointer arithmetic indexes it. -/
structure pf_sample_set where
  samples : List pf_sample
  kdtree : List (pf_vector × ℝ)
  cluster_count : ℤ
  cluster_max_count : ℤ
  clusters : ℤ → pf_cluster

/-- The filter: `pf_t` (two sample sets, the current-set index, the KLD
parameters and the population bounds). -/
structure pf_t where
  min_samples : ℤ
  max_samples : ℤ
  overHead_samples : ℤ
  pop_err : ℝ
  pop_z : ℝ
  current_set : Fin 2
  sets : Fin 2 → pf_sample_set

/-- A map cell; the filter core reads only `occ_state`
(-1 = free, 0 = unknown, +1 = occupied). -/
structure map_cell where
  occ_state : ℤ

/-- The occupancy map (`map_t` of map.h); `cells` models the flat cell
array, indexed by `MAP_INDEX`. -/
structure map_t where
  origin_x : ℝ
  origin_y : ℝ
  scale : ℝ
  size_x : ℤ
  size_y : ℤ
  cells : ℤ → map_cell

/-- An externally supplied hypothesis (`hyp_t`: Gaussian mean and
covariance, declared in pf.h). -/
structure hyp_t where
  pf_pose_mean : pf_vector
  pf_pose_cov : pf_matrix

/-- `MAP_GXWX(map, x)`: world x to grid column.  `map->size_x / 2` is C
`int` division (truncation toward zero). -/
noncomputable def MAP_GXWX (map : map_t) (x : ℝ) : ℤ :=
  ⌊(x - map.origin_x) / map.scale + 0.5⌋ + Int.tdiv map.size_x 2

/-- `MAP_GYWY(map, y)`: world y to grid row. -/
noncomputable def MAP_GYWY (map : map_t) (y : ℝ) : ℤ :=
  ⌊(y - map.origin_y) / map.scale + 0.5⌋ + Int.tdiv map.size_y 2

/-- `MAP_VALID(map, i, j)`. -/
def MAP_VALID (map : map_t) (i j : ℤ) : Prop :=
  0 ≤ i ∧ i < map.size_x ∧ 0 ≤ j ∧ j < map.size_y

instance (map : map_t) (i j : ℤ) : Decidable (MAP_VALID map i j) := by
  unfold MAP_VALID; infer_instance

/-- `MAP_INDEX(map, i, j)`. -/
def MAP_INDEX (map : map_t) (i j : ℤ) : ℤ := i + j * map.size_x

/-- The acceptance test used by every map-constrained sampler in pf.c:
the cell under (x, y) is inside the map and `occ_state == -1`. -/
noncomputable def map_free_at (map : map_t) (x y : ℝ) : Prop :=
  MAP_VALID map (MAP_GXWX map x) (MAP_GYWY map y) ∧
    (map.cells (MAP_INDEX map (MAP_GXWX map x) (MAP_GYWY map y))).occ_state = -1

/-- `pf_resample_limit(pf, k)`: the Fox KLD-sampling population bound.
`(int) ceil(...)` is exact since `ceil` is already integral. -/
noncomputable def pf_resample_limit (pf : pf_t) (k : ℤ) : ℤ :=
  if k ≤ 1 then pf.min_samples
  else
    let b : ℝ := 2 / (9 * ((k : ℝ) - 1))
    let c : ℝ := Real.sqrt (2 / (9 * ((k : ℝ) - 1))) * pf.pop_z
    let x : ℝ := 1 - b + c
    let n : ℤ := ⌈((k : ℝ) - 1) / (2 * pf.pop_err) * x * x * x⌉
    if n < pf.min_samples then pf.min_samples
    else if n ≥ pf.max_samples then pf.max_samples
    else n

/-- `pf_resample_limit_2(pf, k)`: the variant used inside
`pf_update_resample_hyps_3`; no `k <= 1` guard and no clamping, and the
divisor is `5 * 2 * pop_err`. -/
noncomputable def pf_resample_limit_2 (pf : pf_t) (k : ℤ) : ℤ :=
  let b : ℝ := 2 / (9 * ((k : ℝ) - 1))
  let c : ℝ := Real.sqrt (2 / (9 * ((k : ℝ) - 1))) * pf.pop_z
  let x : ℝ := 1 - b + c
  ⌈((k : ℝ) - 1) / (5 * 2 * pf.pop_err) * x * x * x⌉

/-- `pf_resample_limit_hyps(pf, k, pop_z, pop_err)`: the same bound with
the KLD parameters passed explicitly. -/
noncomputable def pf_resample_limit_hyps (pf : pf_t) (k : ℤ) (pop_z pop_err : ℝ) : ℤ :=
  if k ≤ 1 then pf.min_samples
  else
    let b : ℝ := 2 / (9 * ((k : ℝ) - 1))
    let c : ℝ := Real.sqrt (2 / (9 * ((k : ℝ) - 1))) * pop_z
    let x : ℝ := 1 - b + c
    let n : ℤ := ⌈((k : ℝ) - 1) / (2 * pop_err) * x * x * x⌉
    if n < pf.min_samples then pf.min_samples
    else if n ≥ pf.max_samples then pf.max_samples
    else n

/-- One step of the accumulation loop of `pf_update_sensor`: divide the
weight by `total` and add its square to the running sum. -/
noncomputable def sensor_norm_step (total : ℝ) (acc : List pf_sample × ℝ) (s : pf_sample) :
    List pf_sample × ℝ :=
  let w := s.weight / total
  (acc.1 ++ [{ s with weight := w }], acc.2 + w ^ 2)

/-- One step of the zero-total recovery loop of `pf_update_sensor`: reset
the weight to `1 / sample_count` and add its square to the running sum. -/
noncomputable def sensor_reset_step (n : ℕ) (acc : List pf_sample × ℝ) (s : pf_sample) :
    List pf_sample × ℝ :=
  (acc.1 ++ [{ s with weight := 1 / (n : ℝ) }], acc.2 + (1 / (n : ℝ)) ^ 2)

/-- `pf_update_sensor(pf, sensor_fn, sensor_data)` acting on the current
set's samples.  The opaque sensor callback is the oracle `sensor_fn`: it
rewrites the sample array and returns the total weight.  The result is the
rewritten-and-normalized sample list and the returned `squareWeightSum`. -/
noncomputable def pf_update_sensor (sensor_fn : List pf_sample → List pf_sample × ℝ)
    (samples : List pf_sample) : List pf_sample × ℝ :=
  let r := sensor_fn samples
  let total := r.2
  if 0 < total then
    r.1.foldl (sensor_norm_step total) ([], 0)
  else
    r.1.foldl (sensor_reset_step r.1.length) ([], 0)

/-- The zero cluster record written by the initialization pass of
`pf_cluster_stats`. -/
def pf_cluster_init : pf_cluster :=
  { count := 0, weight := 0, mean := pf_vector_zero, cov := pf_matrix_zero,
    m := fun _ => 0, c := fun _ _ => 0 }

/-- The accumulation step of `pf_cluster_stats` for one sample with label
`c`: bump count and weight, accumulate the four moments and the 2x2
outer-product matrix. -/
noncomputable def cluster_accum (s : pf_sample) (cl : pf_cluster) : pf_cluster :=
  { cl with
    count := cl.count + 1
    weight := cl.weight + s.weight
    m := fun j =>
      if j = 0 then cl.m 0 + s.weight * s.pose.v0
      else if j = 1 then cl.m 1 + s.weight * s.pose.v1
      else if j = 2 then cl.m 2 + s.weight * Real.cos s.pose.v2
      else cl.m 3 + s.weight * Real.sin s.pose.v2
    c := fun j k =>
      let vj := if j = 0 then s.pose.v0 else s.pose.v1
      let vk := if k = 0 then s.pose.v0 else s.pose.v1
      cl.c j k + s.weight * vj * vk }

/-- C `atan2(y, x)`: the argument of the complex number x + y i. -/
noncomputable def atan2 (y x : ℝ) : ℝ := Complex.arg ⟨x, y⟩

/-- The normalization pass of `pf_cluster_stats` for one cluster: linear
mean, circular (atan2) angular mean, linear covariance and the circular
dispersion in `cov.m[2][2]`. -/
noncomputable def cluster_normalize (cl : pf_cluster) : pf_cluster :=
  let mean : pf_vector :=
    ⟨cl.m 0 / cl.weight, cl.m 1 / cl.weight, atan2 (cl.m 3) (cl.m 2)⟩
  let meanv : Fin 3 → ℝ := fun j => if j = 0 then mean.v0 else if j = 1 then mean.v1 else mean.v2
  let cov : pf_matrix :=
    ⟨fun j k =>
      if hj : (j : ℕ) < 2 then
        if hk : (k : ℕ) < 2 then
          cl.c ⟨j, hj⟩ ⟨k, hk⟩ / cl.weight - meanv j * meanv k
        else 0
      else if j = 2 ∧ k = 2 then
        -2 * Real.log (Real.sqrt (cl.m 2 * cl.m 2 + cl.m 3 * cl.m 3))
      else 0⟩
  { cl with mean := mean, cov := cov }

/-- `pf_cluster_stats(pf, set)`.  The kd-tree clustering pass
(`pf_kdtree_cluster` / `pf_kdtree_get_cluster`, in pf_kdtree.c, which is
not among this repository's sources) is the oracle `getCluster`, modelled
from the spec: after clustering, every leaf carries a non-negative label,
so labels are natural numbers.  Samples and the kd-tree are read, never
written; only the cluster table and `cluster_count` change. -/
noncomputable def pf_cluster_stats (getCluster : pf_vector → ℕ) (set : pf_sample_set) :
    pf_sample_set :=
  let zeroed : ℤ → pf_cluster := fun i =>
    if 0 ≤ i ∧ i < set.cluster_max_count then pf_cluster_init else set.clusters i
  let step : (ℤ → pf_cluster) × ℤ → pf_sample → (ℤ → pf_cluster) × ℤ := fun acc s =>
    let c : ℤ := (getCluster s.pose : ℤ)
    if c ≥ set.cluster_max_count then acc
    else
      let cnt := if c + 1 > acc.2 then c + 1 else acc.2
      (Function.update acc.1 c (cluster_accum s (acc.1 c)), cnt)
  let accd := set.samples.foldl step (zeroed, 0)
  let normd : ℤ → pf_cluster := fun i =>
    if 0 ≤ i ∧ i < accd.2 then cluster_normalize (accd.1 i) else accd.1 i
  { set with cluster_count := accd.2, clusters := normd }

/-- `pf_get_cluster_stats(pf, clabel, &weight, &mean, &cov)`: the returned
int, and the copied-out (weight, mean, cov) when it returns 1.  The only
range check in the source is `clabel >= set->cluster_count`. -/
def pf_get_cluster_stats (pf : pf_t) (clabel : ℤ) :
    ℤ × Option (ℝ × pf_vector × pf_matrix) :=
  let set := pf.sets pf.current_set
  if clabel ≥ set.cluster_count then (0, none)
  else (1, some ((set.clusters clabel).weight, (set.clusters clabel).mean,
    (set.clusters clabel).cov))

/-- The draw loop shared by every importance-resampling phase in pf.c
(`pf_update_resample` lines 379-406 and its variants): draw an index from
the discrete pdf (`pf_pdf_discrete_sample`, pf_pdf.c, not among this
repository's sources, so the draw stream is the oracle `draw`), assert the
drawn weight is positive (a failed assert aborts: `none`), copy the pose
into the scratch list with weight 1.0, add it to the histogram, and stop
when the count exceeds the KLD limit for the current leaf count or the
fuel (`nMax - count` at entry, matching the while bound) runs out. -/
noncomputable def importance_loop (pf : pf_t) (lc : List (pf_vector × ℝ) → ℕ)
    (draw : ℕ → ℕ) (src : List pf_sample) :
    ℕ → ℕ → List pf_sample → List (pf_vector × ℝ) → ℝ →
    Option (List pf_sample × List (pf_vector × ℝ) × ℝ)
  | 0, _, acc, tree, total => some (acc, tree, total)
  | fuel + 1, t, acc, tree, total =>
    let sample_a := src.getD (draw t) default
    if 0 < sample_a.weight then
      let acc' := acc ++ [⟨sample_a.pose, 1⟩]
      let tree' := (sample_a.pose, (1 : ℝ)) :: tree
      let total' := total + 1
      if (acc'.length : ℤ) > pf_resample_limit pf (lc tree') then some (acc', tree', total')
      else importance_loop pf lc draw src fuel (t + 1) acc' tree' total'
    else none

/-- The do/while rejection loop against the free-cell predicate
(`pf_init_map`, `pf_update_resample_addParticle`, `pf_update_resample_map`):
keep drawing candidates until one lands on a valid free cell; `none` when
the fuel runs out (the C loop would not have returned). -/
noncomputable def map_free_loop (map : map_t) (cand : ℕ → pf_vector) :
    ℕ → ℕ → Option pf_vector
  | _, 0 => none
  | t, fuel + 1 =>
    let tmp := cand t
    if map_free_at map tmp.v0 tmp.v1 then some tmp
    else map_free_loop map cand (t + 1) fuel

/-- The rejection loop of `pf_init_to_point`: only `MAP_VALID` is checked
(the free-cell conjunct is commented out in the source). -/
noncomputable def map_valid_loop (map : map_t) (cand : ℕ → pf_vector) :
    ℕ → ℕ → Option pf_vector
  | _, 0 => none
  | t, fuel + 1 =>
    let tmp := cand t
    if MAP_VALID map (MAP_GXWX map tmp.v0) (MAP_GYWY map tmp.v1) then some tmp
    else map_valid_loop map cand (t + 1) fuel

/-- Candidate pose of the rejection loop in `pf_init_map`: two uniform
draws scaled to the map extent; theta is forced to 0 (the uniform draw on
that line is commented out in the source). -/
noncomputable def init_map_cand (map : map_t) (u : ℕ → ℝ × ℝ) (t : ℕ) : pf_vector :=
  ⟨((u t).1 - 0.5) * map.size_x * map.scale,
   ((u t).2 - 0.5) * map.size_y * map.scale, 0⟩

/-- Candidate pose with uniform theta, as drawn by the rejection loops of
`pf_update_resample_addParticle` and `pf_update_resample_map`. -/
noncomputable def uniform_map_cand (map : map_t) (u : ℕ → ℝ × ℝ × ℝ) (t : ℕ) : pf_vector :=
  ⟨((u t).1 - 0.5) * map.size_x * map.scale,
   ((u t).2.1 - 0.5) * map.size_y * map.scale,
   ((u t).2.2 - 0.5) * 2 * Real.pi⟩

/-- Candidate pose of `pf_init_to_point`: uniform in a `var`-sized box
around (x, y), uniform theta. -/
noncomputable def to_point_cand (x y var : ℝ) (u : ℕ → ℝ × ℝ × ℝ) (t : ℕ) : pf_vector :=
  ⟨((u t).1 - 0.5) * var + x, ((u t).2.1 - 0.5) * var + y,
   ((u t).2.2 - 0.5) * 2 * Real.pi⟩

/-- The rebuild of the current set shared by the `pf_init*` operations:
install the new samples, the histogram rebuilt by inserting them in order,
and recompute cluster statistics.  No buffer flip. -/
noncomputable def init_set (pf : pf_t) (getCluster : pf_vector → ℕ)
    (samples : List pf_sample) : pf_t :=
  let set := pf.sets pf.current_set
  let tree := samples.foldl (fun tr s => (s.pose, s.weight) :: tr) []
  let set' := pf_cluster_stats getCluster { set with samples := samples, kdtree := tree }
  { pf with sets := Function.update pf.sets pf.current_set set' }

/-- `pf_init(pf, mean, cov)`: Gaussian initialization; `max_samples`
samples with uniform weight `1/max_samples`.  The Gaussian pdf sampler
(pf_pdf.c, not among this repository's sources) is the oracle `gsample`. -/
noncomputable def pf_init (pf : pf_t) (mean : pf_vector) (cov : pf_matrix)
    (gsample : pf_vector → pf_matrix → ℕ → pf_vector)
    (getCluster : pf_vector → ℕ) : pf_t :=
  init_set pf getCluster
    ((List.range pf.max_samples.toNat).map fun i =>
      ⟨gsample mean cov i, 1 / (pf.max_samples : ℝ)⟩)

/-- `pf_init_map(pf, map)`: map-constrained uniform initialization;
every pose comes from the free-cell rejection loop. -/
noncomputable def pf_init_map (pf : pf_t) (map : map_t) (u : ℕ → ℕ → ℝ × ℝ)
    (fuel : ℕ) (getCluster : pf_vector → ℕ) : Option pf_t :=
  match (List.range pf.max_samples.toNat).mapM
      (fun i => map_free_loop map (init_map_cand map (u i)) 0 fuel) with
  | none => none
  | some poses =>
    some (init_set pf getCluster (poses.map fun p => ⟨p, 1 / (pf.max_samples : ℝ)⟩))

/-- `pf_init_model(pf, init_fn, init_data)`: the opaque init callback is
the oracle `init_fn` (the i-th call's returned pose). -/
noncomputable def pf_init_model (pf : pf_t) (init_fn : ℕ → pf_vector)
    (getCluster : pf_vector → ℕ) : pf_t :=
  init_set pf getCluster
    ((List.range pf.max_samples.toNat).map fun i =>
      ⟨init_fn i, 1 / (pf.max_samples : ℝ)⟩)

/-- `pf_init_to_point(pf, map, x, y, var)`: uniform in a box around
(x, y); the rejection loop checks map bounds only. -/
noncomputable def pf_init_to_point (pf : pf_t) (map : map_t) (x y var : ℝ)
    (u : ℕ → ℕ → ℝ × ℝ × ℝ) (fuel : ℕ) (getCluster : pf_vector → ℕ) : Option pf_t :=
  match (List.range pf.max_samples.toNat).mapM
      (fun i => map_valid_loop map (to_point_cand x y var (u i)) 0 fuel) with
  | none => none
  | some poses =>
    some (init_set pf getCluster (poses.map fun p => ⟨p, 1 / (pf.max_samples : ℝ)⟩))

/-- The shared finish of every resampler: install the scratch-set content,
recompute its cluster statistics, and flip `current_set` (one `+ 1` in
`Fin 2` is the C `(current_set + 1) % 2`). -/
noncomputable def finish_resample (pf : pf_t) (getCluster : pf_vector → ℕ)
    (samples : List pf_sample) (tree : List (pf_vector × ℝ)) : pf_t :=
  let b := pf.current_set + 1
  let set_b' := pf_cluster_stats getCluster
    { pf.sets b with samples := samples, kdtree := tree }
  { pf with sets := Function.update pf.sets b set_b', current_set := b }

/-- `pf_update_resample(pf, nMaxParticles)`: plain importance resampling
into the scratch set, normalization by the accumulated total, cluster
statistics, flip. -/
noncomputable def pf_update_resample (pf : pf_t) (nMaxParticles : ℤ) (draw : ℕ → ℕ)
    (lc : List (pf_vector × ℝ) → ℕ) (getCluster : pf_vector → ℕ) : Option pf_t :=
  let set_a := pf.sets pf.current_set
  match importance_loop pf lc draw set_a.samples nMaxParticles.toNat 0 [] [] 0 with
  | none => none
  | some (bs, tree, total) =>
    some (finish_resample pf getCluster
      (bs.map fun s => { s with weight := s.weight / total }) tree)

/-- The map-constrained injection loop shared by
`pf_update_resample_addParticle` and `pf_update_resample_map`: each of the
`k` iterations appends one sample drawn by the free-cell rejection loop
with weight 1.0, counts it into the running total and inserts it into the
histogram; `none` when a rejection loop exhausts its fuel. -/
noncomputable def inject_free_samples (map : map_t) (cand : ℕ → ℕ → pf_vector) (fuel : ℕ) :
    ℕ → ℕ → List pf_sample × List (pf_vector × ℝ) × ℝ →
    Option (List pf_sample × List (pf_vector × ℝ) × ℝ)
  | _, 0, st => some st
  | i, k + 1, st =>
    match map_free_loop map (cand i) 0 fuel with
    | none => none
    | some tmp =>
      inject_free_samples map cand fuel (i + 1) k
        (st.1 ++ [⟨tmp, 1⟩], (tmp, (1 : ℝ)) :: st.2.1, st.2.2 + 1)

/-- `pf_update_resample_addParticle(pf, nPartToAdd, map)`: importance
resampling with target `max_samples - nPartToAdd`, then exactly
`nPartToAdd` injected map-uniform samples, normalization, flip. -/
noncomputable def pf_update_resample_addParticle (pf : pf_t) (nPartToAdd : ℤ)
    (map : map_t) (draw : ℕ → ℕ) (u : ℕ → ℕ → ℝ × ℝ × ℝ) (fuel : ℕ)
    (lc : List (pf_vector × ℝ) → ℕ) (getCluster : pf_vector → ℕ) : Option pf_t :=
  let set_a := pf.sets pf.current_set
  match importance_loop pf lc draw set_a.samples (pf.max_samples - nPartToAdd).toNat
      0 [] [] 0 with
  | none => none
  | some st =>
    match inject_free_samples map (fun i => uniform_map_cand map (u i)) fuel 0
        nPartToAdd.toNat st with
    | none => none
    | some (bs, tree, total) =>
      some (finish_resample pf getCluster
        (bs.map fun s => { s with weight := s.weight / total }) tree)

/-- `pf_update_resample_map(pf, map)`: importance resampling with target
`max_samples - overHead_samples`; when fewer than `min_samples + 10`
samples were drawn, up to 100 extra map-uniform samples are injected
(stopping at `max_samples`); normalization, flip. -/
noncomputable def pf_update_resample_map (pf : pf_t) (map : map_t) (draw : ℕ → ℕ)
    (u : ℕ → ℕ → ℝ × ℝ × ℝ) (fuel : ℕ) (lc : List (pf_vector × ℝ) → ℕ)
    (getCluster : pf_vector → ℕ) : Option pf_t :=
  let set_a := pf.sets pf.current_set
  match importance_loop pf lc draw set_a.samples
      (pf.max_samples - pf.overHead_samples).toNat 0 [] [] 0 with
  | none => none
  | some st =>
    match (if (st.1.length : ℤ) < pf.min_samples + 10 then
        inject_free_samples map (fun i => uniform_map_cand map (u i)) fuel 0
          (min 100 (pf.max_samples - st.1.length).toNat) st
      else some st) with
    | none => none
    | some (bs, tree, total) =>
      some (finish_resample pf getCluster
        (bs.map fun s => { s with weight := s.weight / total }) tree)

/-- The per-hypothesis injection budget computed by
`pf_update_resample_hyps`: the remaining capacity `max_samples - n_b`,
capped by `nParticle`, divided by the number of hypotheses (C `int`
division truncates toward zero). -/
def resample_hyps_budget (pf : pf_t) (n_b nParticle nHyp : ℤ) : ℤ :=
  let nNewSample := pf.max_samples - n_b
  let nNewSample := if nParticle < nNewSample then nParticle else nNewSample
  Int.tdiv nNewSample nHyp

/-- One hypothesis-guided candidate (`pf_update_resample_hyps` and
`pf_update_resample_hyps_2`): the correlation coefficient is formed from
the covariance entries, which the source uses as standard deviations; the
bivariate Gaussian draw (`gsl_ran_bivariate_gaussian`, external) is the
oracle `bigauss`, offset by the hypothesis mean; theta is uniform. -/
noncomputable def hyp_cand (hyp : hyp_t) (bigauss : ℝ → ℝ → ℝ → ℝ × ℝ) (uth : ℝ) :
    pf_vector :=
  let rho := hyp.pf_pose_cov.m 0 1 / (hyp.pf_pose_cov.m 0 0 * hyp.pf_pose_cov.m 1 1)
  let d := bigauss (hyp.pf_pose_cov.m 0 0) (hyp.pf_pose_cov.m 1 1) rho
  ⟨hyp.pf_pose_mean.v0 + d.1, hyp.pf_pose_mean.v1 + d.2, (uth - 0.5) * 2 * Real.pi⟩

/-- The hypothesis injection pass of `pf_update_resample_hyps`: for each
hypothesis j and each of the budgeted draws, one candidate is attempted
and appended (weight 1.0, counted and inserted) only when it lands on a
free map cell. -/
noncomputable def hyps_inject (map : map_t) (nHyp nNew : ℕ) (hyps : ℕ → hyp_t)
    (bigauss : ℕ → ℕ → ℝ → ℝ → ℝ → ℝ × ℝ) (uth : ℕ → ℕ → ℝ)
    (st : List pf_sample × List (pf_vector × ℝ) × ℝ) :
    List pf_sample × List (pf_vector × ℝ) × ℝ :=
  (List.range nHyp).foldl
    (fun st1 j =>
      (List.range nNew).foldl
        (fun st2 i =>
          let tmp := hyp_cand (hyps j) (bigauss j i) (uth j i)
          if map_free_at map tmp.v0 tmp.v1 then
            (st2.1 ++ [⟨tmp, 1⟩], (tmp, (1 : ℝ)) :: st2.2.1, st2.2.2 + 1)
          else st2)
        st1)
    st

/-- The importance-resampling phase of `pf_update_resample_hyps` (target
`max_samples - overHead_samples`), named so the injection budget can be
stated against the post-phase sample count. -/
noncomputable def resample_hyps_importance (pf : pf_t) (draw : ℕ → ℕ)
    (lc : List (pf_vector × ℝ) → ℕ) :
    Option (List pf_sample × List (pf_vector × ℝ) × ℝ) :=
  importance_loop pf lc draw (pf.sets pf.current_set).samples
    (pf.max_samples - pf.overHead_samples).toNat 0 [] [] 0

/-- `pf_update_resample_hyps(pf, map, nHyp, hyps, nParticle)`: importance
resampling, hypothesis-guided injection under the computed budget,
normalization, flip.  The second component of the result is the budget
`nNewSample` the run used (returned for specification purposes). -/
noncomputable def pf_update_resample_hyps (pf : pf_t) (map : map_t) (nHyp : ℤ)
    (hyps : ℕ → hyp_t) (nParticle : ℤ) (draw : ℕ → ℕ)
    (lc : List (pf_vector × ℝ) → ℕ) (bigauss : ℕ → ℕ → ℝ → ℝ → ℝ → ℝ × ℝ)
    (uth : ℕ → ℕ → ℝ) (getCluster : pf_vector → ℕ) : Option (pf_t × ℤ) :=
  match resample_hyps_importance pf draw lc with
  | none => none
  | some st =>
    let nNewSample := resample_hyps_budget pf st.1.length nParticle nHyp
    let r := hyps_inject map nHyp.toNat nNewSample.toNat hyps bigauss uth st
    some (finish_resample pf getCluster
      (r.1.map fun s => { s with weight := s.weight / r.2.2 }) r.2.1, nNewSample)

/-- The set-A injection pass of `pf_update_resample_hyps_2`: hypothesis
candidates appended directly to the current set (weight 1.0, no histogram
insert), one attempt per budgeted draw. -/
noncomputable def hyps2_inject (map : map_t) (nHyp nNew : ℕ) (hyps : ℕ → hyp_t)
    (bigauss : ℕ → ℕ → ℝ → ℝ → ℝ → ℝ × ℝ) (uth : ℕ → ℕ → ℝ)
    (acc : List pf_sample) : List pf_sample :=
  (List.range nHyp).foldl
    (fun a1 j =>
      (List.range nNew).foldl
        (fun a2 i =>
          let tmp := hyp_cand (hyps j) (bigauss j i) (uth j i)
          if map_free_at map tmp.v0 tmp.v1 then a2 ++ [⟨tmp, 1⟩] else a2)
        a1)
    acc

/-- `pf_update_resample_hyps_2(pf, map, nHyp, hyps, over_head)`: grow the
*current* set with hypothesis samples, reset all its weights to
`1/sample_count`, importance-resample from it into the scratch set with
the hard-coded target `max_samples - 1000`, normalize by the scratch
count, flip.  `over_head` is accepted and never read, as in the source. -/
noncomputable def pf_update_resample_hyps_2 (pf : pf_t) (map : map_t) (nHyp : ℤ)
    (hyps : ℕ → hyp_t) (over_head : ℤ) (draw : ℕ → ℕ)
    (lc : List (pf_vector × ℝ) → ℕ) (bigauss : ℕ → ℕ → ℝ → ℝ → ℝ → ℝ × ℝ)
    (uth : ℕ → ℕ → ℝ) (getCluster : pf_vector → ℕ) : Option pf_t :=
  let set_a := pf.sets pf.current_set
  let nNewSample := Int.tdiv (pf.max_samples - set_a.samples.length) nHyp
  let grown := hyps2_inject map nHyp.toNat nNewSample.toNat hyps bigauss uth set_a.samples
  let aN := grown.map fun s => { s with weight := 1 / (grown.length : ℝ) }
  let set_a' := { set_a with samples := aN }
  let pf1 := { pf with sets := Function.update pf.sets pf.current_set set_a' }
  match importance_loop pf1 lc draw aN (pf.max_samples - 1000).toNat 0 [] [] 0 with
  | none => none
  | some (bs, tree, _) =>
    some (finish_resample pf1 getCluster
      (bs.map fun s => { s with weight := s.weight / (bs.length : ℝ) }) tree)

/-- One hypothesis-guided candidate of `pf_update_resample_hyps_3`: like
`hyp_cand` but theta is forced to 0 (the uniform draw on those lines is
commented out; a fresh theta is drawn at transfer time instead). -/
noncomputable def hyp_cand_3 (hyp : hyp_t) (bigauss : ℝ → ℝ → ℝ → ℝ × ℝ) : pf_vector :=
  let rho := hyp.pf_pose_cov.m 0 1 / (hyp.pf_pose_cov.m 0 0 * hyp.pf_pose_cov.m 1 1)
  let d := bigauss (hyp.pf_pose_cov.m 0 0) (hyp.pf_pose_cov.m 1 1) rho
  ⟨hyp.pf_pose_mean.v0 + d.1, hyp.pf_pose_mean.v1 + d.2, 0⟩

/-- The seeding pass of one `pf_update_resample_hyps_3` hypothesis round:
`nMinPart` single-attempt draws into the freshly reset current set. -/
noncomputable def hyps3_seed (map : map_t) (hyp : hyp_t)
    (bigauss : ℕ → ℝ → ℝ → ℝ → ℝ × ℝ) (nMinPart : ℕ) :
    List pf_sample × List (pf_vector × ℝ) :=
  (List.range nMinPart).foldl
    (fun st i =>
      let tmp := hyp_cand_3 hyp (bigauss i)
      if map_free_at map tmp.v0 tmp.v1 then
        (st.1 ++ [⟨tmp, 1⟩], (tmp, (1 : ℝ)) :: st.2)
      else st)
    ([], [])

/-- The growth loop of one `pf_update_resample_hyps_3` hypothesis round:
while the count is below the budget, stop once it exceeds the secondary
KLD cutoff `pf_resample_limit_2`, else attempt one more candidate.  A
rejected candidate leaves the count unchanged, so the C loop can spin
forever; the fuel bounds the modelled attempts (`none` = no return). -/
noncomputable def hyps3_grow (pf : pf_t) (map : map_t) (hyp : hyp_t)
    (lcA : List (pf_vector × ℝ) → ℕ) (bigauss : ℕ → ℝ → ℝ → ℝ → ℝ × ℝ) (nNew : ℤ) :
    ℕ → ℕ → List pf_sample × List (pf_vector × ℝ) →
    Option (List pf_sample × List (pf_vector × ℝ))
  | _, 0, st => if (st.1.length : ℤ) < nNew then none else some st
  | t, fuel + 1, st =>
    if (st.1.length : ℤ) < nNew then
      if (st.1.length : ℤ) > pf_resample_limit_2 pf (lcA st.2) then some st
      else
        let tmp := hyp_cand_3 hyp (bigauss t)
        if map_free_at map tmp.v0 tmp.v1 then
          hyps3_grow pf map hyp lcA bigauss nNew (t + 1) fuel
            (st.1 ++ [⟨tmp, 1⟩], (tmp, (1 : ℝ)) :: st.2)
        else hyps3_grow pf map hyp lcA bigauss nNew (t + 1) fuel st
    else some st

/-- The transfer pass of one `pf_update_resample_hyps_3` hypothesis round:
each sample of the per-hypothesis cloud is appended to the scratch set
with a fresh uniform theta and weight 1.0, and inserted into the scratch
histogram. -/
noncomputable def hyps3_transfer (uth : ℕ → ℝ) (aSamples : List pf_sample)
    (st : List pf_sample × List (pf_vector × ℝ)) :
    List pf_sample × List (pf_vector × ℝ) :=
  aSamples.enum.foldl
    (fun st2 pi =>
      let pose : pf_vector :=
        ⟨pi.2.pose.v0, pi.2.pose.v1, (uth pi.1 - 0.5) * 2 * Real.pi⟩
      (st2.1 ++ [⟨pose, 1⟩], (pose, (1 : ℝ)) :: st2.2))
    st

/-- One full hypothesis round of `pf_update_resample_hyps_3`: reset the
current set, seed it, grow it, then transfer it into the scratch set.
The state is (current-set content, scratch-set content). -/
noncomputable def hyps3_round (pf : pf_t) (map : map_t) (hyp : hyp_t)
    (lcA : List (pf_vector × ℝ) → ℕ) (bg1 bg2 : ℕ → ℝ → ℝ → ℝ → ℝ × ℝ)
    (uth : ℕ → ℝ) (growFuel : ℕ) (nMinPart nNew : ℤ)
    (st : (List pf_sample × List (pf_vector × ℝ)) ×
      (List pf_sample × List (pf_vector × ℝ))) :
    Option ((List pf_sample × List (pf_vector × ℝ)) ×
      (List pf_sample × List (pf_vector × ℝ))) :=
  let seeded := hyps3_seed map hyp bg1 nMinPart.toNat
  match hyps3_grow pf map hyp lcA bg2 nNew 0 growFuel seeded with
  | none => none
  | some a' => some (a', hyps3_transfer uth a'.1 st.2)

/-- `pf_update_resample_hyps_3(pf, map, nHyp, hyps)`: importance
resampling with the computed `nReqSamples` target, then per hypothesis a
seeded, KLD-limited cloud built in the (reset) current set and transferred
into the scratch set, normalization by the scratch count, flip.  The
current set ends holding the last hypothesis round's cloud. -/
noncomputable def pf_update_resample_hyps_3 (pf : pf_t) (map : map_t) (nHyp : ℤ)
    (hyps : ℕ → hyp_t) (draw : ℕ → ℕ) (lc lcA : List (pf_vector × ℝ) → ℕ)
    (bg1 bg2 : ℕ → ℕ → ℝ → ℝ → ℝ → ℝ × ℝ) (uth : ℕ → ℕ → ℝ) (growFuel : ℕ)
    (getCluster : pf_vector → ℕ) : Option pf_t :=
  let set_a := pf.sets pf.current_set
  let nReqSamples :=
    if pf.max_samples - (set_a.samples.length : ℤ) < pf.overHead_samples then
      pf.max_samples - pf.overHead_samples
    else (set_a.samples.length : ℤ)
  match importance_loop pf lc draw set_a.samples nReqSamples.toNat 0 [] [] 0 with
  | none => none
  | some (bs0, treeB0, _) =>
    let nNewSample := Int.tdiv (pf.max_samples - nReqSamples) nHyp
    let nMinPart := if nNewSample > 10 then 10 else nNewSample
    match (List.range nHyp.toNat).foldlM
        (fun st j => hyps3_round pf map (hyps j) lcA (bg1 j) (bg2 j) (uth j)
          growFuel nMinPart nNewSample st)
        ((set_a.samples, set_a.kdtree), (bs0, treeB0)) with
    | none => none
    | some r =>
      let bN := r.2.1.map fun s => { s with weight := s.weight / (r.2.1.length : ℝ) }
      let set_a' := { set_a with samples := r.1.1, kdtree := r.1.2 }
      let pf1 := { pf with sets := Function.update pf.sets pf.current_set set_a' }
      some (finish_resample pf1 getCluster bN r.2.2)

/-- The resample limit as claim C2 words it. -/
noncomputable def pf_resample_limit_claimed (pf : pf_t) (k : ℤ) : ℤ :=
  if k ≤ 1 then pf.min_samples
  else
    let b : ℝ := 2 / (9 * ((k : ℝ) - 1))
    let c : ℝ := Real.sqrt (2 / (9 * ((k : ℝ) - 1))) * pf.pop_z
    let x : ℝ := 1 - b + c
    let n : ℤ := ⌈((k : ℝ) - 1) / (2 * pf.pop_err) * x * x * x⌉
    if n ≥ pf.max_samples then pf.max_samples
    else if n < pf.min_samples then pf.min_samples
    else n

/-- An empty sample set for concrete filter states. -/
def set_empty : pf_sample_set :=
  { samples := [], kdtree := [], cluster_count := 0, cluster_max_count := 100,
    clusters := fun _ => pf_cluster_init }

/-- Filter state with min_samples > max_samples. -/
noncomputable def pfC2 : pf_t :=
  { min_samples := 1000, max_samples := 600, overHead_samples := 0,
    pop_err := 1/100, pop_z := 3, current_set := 0, sets := fun _ => set_empty }

/-- Filter with sane bounds for the C2 witness. -/
noncomputable def pfW2 : pf_t :=
  { min_samples := 10, max_samples := 500, overHead_samples := 0,
    pop_err := 1/100, pop_z := 3, current_set := 0, sets := fun _ => set_empty }

/-- Filter whose current set has one cluster. -/
def pfC9 : pf_t :=
  { min_samples := 0, max_samples := 0, overHead_samples := 0,
    pop_err := 0, pop_z := 0, current_set := 0,
    sets := fun _ => { set_empty with cluster_count := 1 } }

noncomputable def sensor_fn_W : List pf_sample → List pf_sample × ℝ := fun l => (l, 1)

def samples_W : List pf_sample := [⟨⟨0, 0, 0⟩, 1⟩]

def sensor_fn_Z : List pf_sample → List pf_sample × ℝ := fun l => (l, 0)

def sample0 : pf_sample := ⟨⟨0, 0, 0⟩, 1⟩

/-- Concrete filter: one unit-weight sample in the current set. -/
noncomputable def pfC8 : pf_t :=
  { min_samples := 0, max_samples := 100, overHead_samples := 10,
    pop_err := 1/100, pop_z := 3, current_set := 0,
    sets := fun _ => { set_empty with samples := [sample0] } }

/-- 2x2 all-free map, origin 0, scale 1. -/
def mapC8 : map_t :=
  { origin_x := 0, origin_y := 0, scale := 1, size_x := 2, size_y := 2,
    cells := fun _ => ⟨-1⟩ }

def hypC8 : hyp_t :=
  { pf_pose_mean := ⟨5, 5, 0⟩, pf_pose_cov := ⟨fun i j => if i = j then 1 else 0⟩ }

def drawZ : ℕ → ℕ := fun _ => 0
def lcZ : List (pf_vector × ℝ) → ℕ := fun _ => 0
def bigaussZ : ℕ → ℕ → ℝ → ℝ → ℝ → ℝ × ℝ := fun _ _ _ _ _ => (0, 0)
def uthZ : ℕ → ℕ → ℝ := fun _ _ => 0
def getClusterZ : pf_vector → ℕ := fun _ => 0

/-- The cube root factor of the Fox bound after substituting s^6 for k-1. -/
noncomputable def kld_core (z s : ℝ) : ℝ :=
  s ^ 2 - (2 / 9) / s ^ 4 + (z * Real.sqrt 2 / 3) / s

/-- Filter with pop_z = 12, in range for the stated claim (min <= max). -/
noncomputable def pfC3 : pf_t :=
  { min_samples := 1, max_samples := 10000, overHead_samples := 0,
    pop_err := 1, pop_z := 12, current_set := 0, sets := fun _ => set_empty }

/-- Every weight nonnegative and the weights sum to 1 (C1's invariant). -/
def weights_normalized (l : List pf_sample) : Prop :=
  (∀ s ∈ l, 0 ≤ s.weight) ∧ (l.map pf_sample.weight).sum = 1

/-- The samples of the filter's current set. -/
def current_samples (pf : pf_t) : List pf_sample := (pf.sets pf.current_set).samples

/-- One occupied cell (index 3) in a 2x2 map. -/
def mapC6 : map_t :=
  { origin_x := 0, origin_y := 0, scale := 1, size_x := 2, size_y := 2,
    cells := fun i => ⟨if i = 3 then 1 else -1⟩ }

/-- Filter whose single source sample sits on the occupied cell. -/
noncomputable def pfC6 : pf_t :=
  { min_samples := 0, max_samples := 2, overHead_samples := 0,
    pop_err := 1/100, pop_z := 3, current_set := 0,
    sets := fun _ => { set_empty with samples := [⟨⟨0, 0, 0⟩, 1⟩] } }

noncomputable def uC6 : ℕ → ℕ → ℝ × ℝ × ℝ := fun _ _ => (0, 0, 1/2)

/-- Filter for the hyps_2 counterexample: two source samples with unequal
weights. -/
noncomputable def pfC7 : pf_t :=
  { min_samples := 0, max_samples := 4, overHead_samples := 0,
    pop_err := 1/100, pop_z := 3, current_set := 0,
    sets := fun _ => { set_empty with
      samples := [⟨⟨0, 0, 0⟩, 3/10⟩, ⟨⟨0, 0, 0⟩, 7/10⟩] } }

noncomputable def setC7_A : pf_sample_set :=
  { pfC7.sets pfC7.current_set with samples :=
    (pfC7.sets pfC7.current_set).samples.map fun s => { s with weight :=
      1 / (((pfC7.sets pfC7.current_set).samples.length : ℕ) : ℝ) } }

noncomputable def pfC7_1 : pf_t :=
  { pfC7 with sets := Function.update pfC7.sets pfC7.current_set setC7_A }

/-- C10: `pf_resample_limit_hyps` instantiated with the filter s own `pop_z` and `pop_err` coincides with `pf_resample_limit` for every filter state and every k. -/
theorem claim_C10_limit_hyps_refines (pf : pf_t) (k : ℤ) :
    pf_resample_limit_hyps pf k pf.pop_z pf.pop_err = pf_resample_limit pf k := rfl

/-- C2 (amended): for every filter state with `min_samples <= max_samples` and every k, `pf_resample_limit` computes the bound exactly as the claim words it (`pf_resample_limit_claimed`): `min_samples` for k <= 1, else the ceiling of (k-1)/(2 pop_err) x^3 clamped below by `min_samples`, with `max_samples` returned whenever the bound reaches it.  The claim as stated omits `min_samples <= max_samples`; when the bounds cross, the code prefers the lower clamp. -/
theorem claim_C2_amended (pf : pf_t) (k : ℤ) (h : pf.min_samples ≤ pf.max_samples) :
    pf_resample_limit pf k = pf_resample_limit_claimed pf k := by
  unfold pf_resample_limit pf_resample_limit_claimed
  dsimp only
  split_ifs <;> omega

theorem sqrtC2 : Real.sqrt (2 / (9 * (((3:ℤ):ℝ) - 1))) = 1/3 := by
  rw [show (2 / (9 * (((3:ℤ):ℝ) - 1))) = (1/3)^2 by push_cast; norm_num]
  exact Real.sqrt_sq (by norm_num)

/-- C2 counterexample: with `min_samples` = 1000 > `max_samples` = 600, pop_err = 1/100, pop_z = 3 and k = 3 the Fox bound is 674; the code returns `min_samples` = 1000 while the clamping claimed by C2 returns `max_samples` = 600. -/
theorem claim_C2_counterexample :
    pf_resample_limit pfC2 3 ≠ pf_resample_limit_claimed pfC2 3 := by
  have h1 : pf_resample_limit pfC2 3 = 1000 := by
    unfold pf_resample_limit
    rw [if_neg (by norm_num : ¬ (3:ℤ) ≤ 1)]
    simp only [pfC2, sqrtC2]
    rw [if_pos]
    rw [show (⌈(((3:ℤ):ℝ) - 1) / (2 * (1/100)) *
        (1 - 2 / (9 * (((3:ℤ):ℝ) - 1)) + 1/3 * 3) *
        (1 - 2 / (9 * (((3:ℤ):ℝ) - 1)) + 1/3 * 3) *
        (1 - 2 / (9 * (((3:ℤ):ℝ) - 1)) + 1/3 * 3)⌉) = 674 by
      push_cast
      rw [show ((3:ℝ) - 1) / (2 * (1/100)) *
        (1 - 2 / (9 * ((3:ℝ) - 1)) + 1/3 * 3) *
        (1 - 2 / (9 * ((3:ℝ) - 1)) + 1/3 * 3) *
        (1 - 2 / (9 * ((3:ℝ) - 1)) + 1/3 * 3) = 491300/729 by norm_num]
      rw [Int.ceil_eq_iff] <;> norm_num]
    norm_num
  have h2 : pf_resample_limit_claimed pfC2 3 = 600 := by
    unfold pf_resample_limit_claimed
    rw [if_neg (by norm_num : ¬ (3:ℤ) ≤ 1)]
    simp only [pfC2, sqrtC2]
    rw [if_pos]
    rw [show (⌈(((3:ℤ):ℝ) - 1) / (2 * (1/100)) *
        (1 - 2 / (9 * (((3:ℤ):ℝ) - 1)) + 1/3 * 3) *
        (1 - 2 / (9 * (((3:ℤ):ℝ) - 1)) + 1/3 * 3) *
        (1 - 2 / (9 * (((3:ℤ):ℝ) - 1)) + 1/3 * 3)⌉) = 674 by
      push_cast
      rw [show ((3:ℝ) - 1) / (2 * (1/100)) *
        (1 - 2 / (9 * ((3:ℝ) - 1)) + 1/3 * 3) *
        (1 - 2 / (9 * ((3:ℝ) - 1)) + 1/3 * 3) *
        (1 - 2 / (9 * ((3:ℝ) - 1)) + 1/3 * 3) = 491300/729 by norm_num]
      rw [Int.ceil_eq_iff] <;> norm_num]
    norm_num
  rw [h1, h2]; norm_num

/-- C2 witness: the amended equation, instantiated at a concrete filter state with `min_samples <= max_samples`. -/
theorem claim_C2_witness :
    pfW2.min_samples ≤ pfW2.max_samples ∧
      pf_resample_limit pfW2 5 = pf_resample_limit_claimed pfW2 5 :=
  ⟨by norm_num [pfW2], claim_C2_amended pfW2 5 (by norm_num [pfW2])⟩

/-- C9 (amended): `pf_get_cluster_stats` returns 0 exactly when `clabel >= cluster_count`, and otherwise returns 1 after copying out that cluster record s weight, mean and covariance.  Negative labels are not rejected (the source checks only the upper bound), so the claim s "including negative labels" is dropped. -/
theorem claim_C9_amended (pf : pf_t) (clabel : ℤ) :
    ((pf_get_cluster_stats pf clabel).1 = 0 ↔
      (pf.sets pf.current_set).cluster_count ≤ clabel) ∧
    (clabel < (pf.sets pf.current_set).cluster_count →
      pf_get_cluster_stats pf clabel =
        (1, some (((pf.sets pf.current_set).clusters clabel).weight,
          ((pf.sets pf.current_set).clusters clabel).mean,
          ((pf.sets pf.current_set).clusters clabel).cov))) := by
  unfold pf_get_cluster_stats
  dsimp only
  constructor
  · split_ifs with h
    · simpa using h
    · simp only [ge_iff_le, not_le] at h
      simp only [Prod.fst]
      constructor
      · intro h10; exact absurd h10 (by norm_num)
      · intro hc; omega
  · intro hlt
    rw [if_neg (by omega)]

/-- C9 counterexample: with `cluster_count` = 1, the call at `clabel` = -1 returns 1, while claim C9 says every negative label returns 0. -/
theorem claim_C9_counterexample :
    ¬ (((pf_get_cluster_stats pfC9 (-1)).1 = 0) ↔
      ((-1 : ℤ) < 0 ∨ (pfC9.sets pfC9.current_set).cluster_count ≤ -1)) := by
  unfold pf_get_cluster_stats
  norm_num [pfC9, set_empty]

lemma sensor_norm_foldl (total : ℝ) (l acc : List pf_sample) (q : ℝ) :
    l.foldl (sensor_norm_step total) (acc, q) =
      (acc ++ l.map (fun s => { s with weight := s.weight / total }),
       q + (l.map (fun s => (s.weight / total) ^ 2)).sum) := by
  induction l generalizing acc q with
  | nil => simp
  | cons s l ih => simp [sensor_norm_step, ih]; ring

lemma sensor_reset_foldl (n : ℕ) (l acc : List pf_sample) (q : ℝ) :
    l.foldl (sensor_reset_step n) (acc, q) =
      (acc ++ l.map (fun s => { s with weight := 1 / (n : ℝ) }),
       q + l.length * (1 / (n : ℝ)) ^ 2) := by
  induction l generalizing acc q with
  | nil => simp
  | cons s l ih => simp [sensor_reset_step, ih]; ring

/-- C5: when the sensor callback reports total weight T > 0, `pf_update_sensor` divides every weight of the current set by T and returns the sum of the squares of the normalized weights. -/
theorem claim_C5_sensor_normalizes (sensor_fn : List pf_sample → List pf_sample × ℝ)
    (samples : List pf_sample) (h : 0 < (sensor_fn samples).2) :
    pf_update_sensor sensor_fn samples =
      ((sensor_fn samples).1.map
        (fun s => { s with weight := s.weight / (sensor_fn samples).2 }),
       ((sensor_fn samples).1.map
        (fun s => (s.weight / (sensor_fn samples).2) ^ 2)).sum) := by
  unfold pf_update_sensor
  rw [if_pos h, sensor_norm_foldl]
  simp

/-- C5 witness: a constant-weight callback returning total 1 on a one-sample set. -/
theorem claim_C5_witness :
    0 < (sensor_fn_W samples_W).2 ∧
    pf_update_sensor sensor_fn_W samples_W =
      ((sensor_fn_W samples_W).1.map
        (fun s => { s with weight := s.weight / (sensor_fn_W samples_W).2 }),
       ((sensor_fn_W samples_W).1.map
        (fun s => (s.weight / (sensor_fn_W samples_W).2) ^ 2)).sum) :=
  ⟨by norm_num [sensor_fn_W],
   claim_C5_sensor_normalizes sensor_fn_W samples_W (by norm_num [sensor_fn_W])⟩

lemma map_weight_const (l : List pf_sample) (w : ℝ) :
    (l.map (fun s => { s with weight := w })).map pf_sample.weight =
      List.replicate l.length w := by
  induction l with
  | nil => rfl
  | cons s l ih => simp [ih, List.replicate_succ]

/-- C4: when the sensor callback reports total weight 0 on a set of n > 0 samples (the callback preserving the count, as its contract requires), `pf_update_sensor` sets every weight to exactly 1/n and returns the sum of squared weights, which equals 1/n. -/
theorem claim_C4_sensor_zero_total (sensor_fn : List pf_sample → List pf_sample × ℝ)
    (samples : List pf_sample) (hT : (sensor_fn samples).2 = 0)
    (hn : (sensor_fn samples).1.length = samples.length)
    (h0 : 0 < samples.length) :
    ((pf_update_sensor sensor_fn samples).1.map pf_sample.weight =
      List.replicate samples.length (1 / (samples.length : ℝ))) ∧
    (pf_update_sensor sensor_fn samples).2 = 1 / (samples.length : ℝ) := by
  unfold pf_update_sensor
  rw [if_neg (by rw [hT]; exact lt_irrefl 0), sensor_reset_foldl]
  constructor
  · simp only [List.nil_append, hn]
    rw [map_weight_const, hn]
  · simp only [hn, zero_add]
    have hne : ((samples.length : ℕ) : ℝ) ≠ 0 := by positivity
    field_simp
    ring

/-- C4 witness: a callback returning total 0 on a one-sample set. -/
theorem claim_C4_witness :
    ((pf_update_sensor sensor_fn_Z samples_W).1.map pf_sample.weight =
      List.replicate samples_W.length (1 / (samples_W.length : ℝ))) ∧
    (pf_update_sensor sensor_fn_Z samples_W).2 = 1 / (samples_W.length : ℝ) :=
  claim_C4_sensor_zero_total sensor_fn_Z samples_W (by norm_num [sensor_fn_Z])
    (by norm_num [sensor_fn_Z]) (by norm_num [samples_W])

/-- C8 (amended): the per-hypothesis injection budget of `pf_update_resample_hyps` is min(`max_samples` - n_b, nParticle) divided by nHyp with C truncating division; it equals the claimed (max_samples - n_b)/nHyp exactly when the `nParticle` cap does not bind, and every completed run returns this budget for the importance phase count n_b.  The claim as stated ignores the `nParticle` cap. -/
theorem claim_C8_amended (pf : pf_t) (n_b nParticle nHyp : ℤ) :
    (resample_hyps_budget pf n_b nParticle nHyp =
      Int.tdiv (min (pf.max_samples - n_b) nParticle) nHyp) ∧
    (pf.max_samples - n_b ≤ nParticle →
      resample_hyps_budget pf n_b nParticle nHyp =
        Int.tdiv (pf.max_samples - n_b) nHyp) ∧
    (∀ (map : map_t) (hyps : ℕ → hyp_t) (draw : ℕ → ℕ)
        (lc : List (pf_vector × ℝ) → ℕ) (bigauss : ℕ → ℕ → ℝ → ℝ → ℝ → ℝ × ℝ)
        (uth : ℕ → ℕ → ℝ) (getCluster : pf_vector → ℕ) (pf' : pf_t) (b : ℤ),
      pf_update_resample_hyps pf map nHyp hyps nParticle draw lc bigauss uth getCluster =
        some (pf', b) →
      ∃ st, resample_hyps_importance pf draw lc = some st ∧
        b = resample_hyps_budget pf st.1.length nParticle nHyp) := by
  refine ⟨?_, ?_, ?_⟩
  · unfold resample_hyps_budget
    dsimp only
    rcases lt_or_le nParticle (pf.max_samples - n_b) with h | h
    · rw [if_pos h, min_eq_right h.le]
    · rw [if_neg (not_lt.mpr h), min_eq_left h]
  · intro h
    unfold resample_hyps_budget
    dsimp only
    rw [if_neg (not_lt.mpr h)]
  · intro map hyps draw lc bigauss uth getCluster pf' b hrun
    unfold pf_update_resample_hyps at hrun
    cases himp : resample_hyps_importance pf draw lc with
    | none => rw [himp] at hrun; exact absurd hrun (by simp)
    | some st =>
      rw [himp] at hrun
      simp only [Option.some.injEq, Prod.mk.injEq] at hrun
      exact ⟨st, rfl, hrun.2.symm⟩

lemma importance_loop_succ (pf : pf_t) (lc : List (pf_vector × ℝ) → ℕ) (draw : ℕ → ℕ)
    (src : List pf_sample) (fuel t : ℕ) (acc : List pf_sample)
    (tree : List (pf_vector × ℝ)) (total : ℝ) :
    importance_loop pf lc draw src (fuel + 1) t acc tree total =
      (let sample_a := src.getD (draw t) default
       if 0 < sample_a.weight then
        let acc' := acc ++ [⟨sample_a.pose, 1⟩]
        let tree' := (sample_a.pose, (1 : ℝ)) :: tree
        let total' := total + 1
        if (acc'.length : ℤ) > pf_resample_limit pf (lc tree') then some (acc', tree', total')
        else importance_loop pf lc draw src fuel (t + 1) acc' tree' total'
       else none) := rfl

lemma pfC8_limit0 : pf_resample_limit pfC8 0 = 0 := by
  unfold pf_resample_limit
  rw [if_pos (by norm_num : (0:ℤ) ≤ 1)]
  norm_num [pfC8]

lemma pfC8_importance :
    resample_hyps_importance pfC8 drawZ lcZ = some ([⟨⟨0,0,0⟩, 1⟩], [(⟨0,0,0⟩, 1)], 1) := by
  show importance_loop pfC8 lcZ drawZ [sample0] (89 + 1) 0 [] [] 0 = _
  rw [importance_loop_succ]
  norm_num [drawZ, sample0, lcZ, pfC8_limit0]

lemma gx5 : MAP_GXWX mapC8 5 = 6 := by
  unfold MAP_GXWX
  norm_num [mapC8]

lemma not_free_55 : ¬ map_free_at mapC8 5 5 := by
  unfold map_free_at MAP_VALID
  rw [gx5]
  norm_num [mapC8]

/-- C8 counterexample: a completed run with `max_samples` = 100, importance count n_b = 1, nParticle = 5 and one hypothesis uses budget 5, not the claimed (100 - 1)/1 = 99. -/
theorem claim_C8_counterexample :
    ∃ pf' : pf_t,
      pf_update_resample_hyps pfC8 mapC8 1 (fun _ => hypC8) 5 drawZ lcZ bigaussZ uthZ
        getClusterZ = some (pf', 5) ∧
      (∃ st, resample_hyps_importance pfC8 drawZ lcZ = some st ∧ st.1.length = 1) ∧
      Int.tdiv (pfC8.max_samples - 1) 1 = 99 ∧ (5 : ℤ) ≠ 99 := by
  have hbudget : resample_hyps_budget pfC8 1 5 1 = 5 := by
    unfold resample_hyps_budget
    norm_num [pfC8]
  have hcand : ∀ i : ℕ, hyp_cand hypC8 (bigaussZ 0 i) (uthZ 0 i) =
      ⟨5, 5, (0 - 0.5) * 2 * Real.pi⟩ := by
    intro i
    unfold hyp_cand
    norm_num [hypC8, bigaussZ, uthZ]
  have hinj : hyps_inject mapC8 1 5 (fun _ => hypC8) bigaussZ uthZ
      ([⟨⟨0,0,0⟩, 1⟩], [(⟨0,0,0⟩, 1)], 1) = ([⟨⟨0,0,0⟩, 1⟩], [(⟨0,0,0⟩, 1)], 1) := by
    unfold hyps_inject
    simp [List.range_succ, hcand, not_free_55]
  have hrun : pf_update_resample_hyps pfC8 mapC8 1 (fun _ => hypC8) 5 drawZ lcZ bigaussZ
      uthZ getClusterZ =
      some (finish_resample pfC8 getClusterZ
        ([(⟨⟨0,0,0⟩, 1⟩ : pf_sample)].map fun s => { s with weight := s.weight / 1 })
        [(⟨0,0,0⟩, 1)], 5) := by
    unfold pf_update_resample_hyps
    rw [pfC8_importance]
    simp only [List.length_cons, List.length_nil, zero_add, Nat.cast_one, hbudget,
      Int.toNat_one, show Int.toNat 5 = 5 from rfl, hinj]
  refine ⟨_, hrun, ⟨_, pfC8_importance, rfl⟩, ?_, ?_⟩
  · decide
  · decide

lemma kld_core_eq (z s : ℝ) (hs : 0 < s) :
    s ^ 6 * (1 - 2 / (9 * s ^ 6) + Real.sqrt (2 / (9 * s ^ 6)) * z) ^ 3 =
      (kld_core z s) ^ 3 := by
  have hsqrt : Real.sqrt (2 / (9 * s ^ 6)) = Real.sqrt 2 / (3 * s ^ 3) := by
    rw [show (2 / (9 * s ^ 6) : ℝ) = 2 / (3 * s ^ 3) ^ 2 by ring,
      Real.sqrt_div (by norm_num), Real.sqrt_sq (by positivity)]
  have key : s ^ 2 * (1 - 2 / (9 * s ^ 6) + Real.sqrt 2 / (3 * s ^ 3) * z) =
      kld_core z s := by
    unfold kld_core
    field_simp
    ring
  calc s ^ 6 * (1 - 2 / (9 * s ^ 6) + Real.sqrt (2 / (9 * s ^ 6)) * z) ^ 3
      = (s ^ 2 * (1 - 2 / (9 * s ^ 6) + Real.sqrt (2 / (9 * s ^ 6)) * z)) ^ 3 := by ring
    _ = (kld_core z s) ^ 3 := by rw [hsqrt, key]

lemma sqrt_two_le : Real.sqrt 2 ≤ 3 / 2 := by
  nlinarith [Real.sq_sqrt (show (0:ℝ) ≤ 2 by norm_num), Real.sqrt_nonneg 2]

lemma kld_core_pos (z s : ℝ) (hs : 1 ≤ s) (hz : 0 ≤ z) : 0 < kld_core z s := by
  unfold kld_core
  have hs0 : (0:ℝ) < s := by linarith
  have h1 : (2 / 9) / s ^ 4 ≤ 2 / 9 := by
    apply div_le_self (by norm_num)
    nlinarith [sq_nonneg s, sq_nonneg (s^2 - 1)]
  have h2 : 0 ≤ (z * Real.sqrt 2 / 3) / s := by positivity
  nlinarith

lemma kld_core_mono (z s s' : ℝ) (hs : 1 ≤ s) (hss : s ≤ s') (hz : 0 ≤ z) (hz4 : z ≤ 4) :
    kld_core z s ≤ kld_core z s' := by
  have hs0 : (0:ℝ) < s := by linarith
  have hs'0 : (0:ℝ) < s' := by linarith
  have hs'1 : (1:ℝ) ≤ s' := le_trans hs hss
  have hc0 : 0 ≤ z * Real.sqrt 2 / 3 := by positivity
  have hc2 : z * Real.sqrt 2 / 3 ≤ 2 := by
    nlinarith [sqrt_two_le, Real.sqrt_nonneg 2]
  have key : kld_core z s' - kld_core z s =
      (s' - s) * ((s + s') - (z * Real.sqrt 2 / 3) / (s * s')) +
        (2 / 9) * (1 / s ^ 4 - 1 / s' ^ 4) := by
    unfold kld_core
    field_simp
    ring
  have hss1 : (1:ℝ) ≤ s * s' := by nlinarith
  have ht1 : 0 ≤ (s' - s) * ((s + s') - (z * Real.sqrt 2 / 3) / (s * s')) := by
    apply mul_nonneg (by linarith)
    have : (z * Real.sqrt 2 / 3) / (s * s') ≤ z * Real.sqrt 2 / 3 :=
      div_le_self hc0 hss1
    linarith
  have ht2 : 0 ≤ (2 / 9 : ℝ) * (1 / s ^ 4 - 1 / s' ^ 4) := by
    apply mul_nonneg (by norm_num)
    have h4 : s ^ 4 ≤ s' ^ 4 := pow_le_pow_left hs0.le hss 4
    have h5 : 1 / s' ^ 4 ≤ 1 / s ^ 4 := by
      apply one_div_le_one_div_of_le (by positivity) h4
    linarith
  linarith [key, ht1, ht2]

lemma kld_raw_mono (z e u u' : ℝ) (hu : 1 ≤ u) (huu : u ≤ u')
    (hz : 0 ≤ z) (hz4 : z ≤ 4) (he : 0 < e) :
    u / (2 * e) * (1 - 2 / (9 * u) + Real.sqrt (2 / (9 * u)) * z) ^ 3 ≤
      u' / (2 * e) * (1 - 2 / (9 * u') + Real.sqrt (2 / (9 * u')) * z) ^ 3 := by
  have hu0 : (0:ℝ) ≤ u := by linarith
  have hu'1 : (1:ℝ) ≤ u' := le_trans hu huu
  have hs1 : 1 ≤ u ^ ((1:ℝ)/6) := Real.one_le_rpow hu (by norm_num)
  have hs'1 : 1 ≤ u' ^ ((1:ℝ)/6) := Real.one_le_rpow hu'1 (by norm_num)
  have hss : u ^ ((1:ℝ)/6) ≤ u' ^ ((1:ℝ)/6) := Real.rpow_le_rpow hu0 huu (by norm_num)
  have hs6 : (u ^ ((1:ℝ)/6)) ^ (6:ℕ) = u := by
    rw [← Real.rpow_natCast (u ^ ((1:ℝ)/6)) 6, ← Real.rpow_mul hu0]
    norm_num
  have hs'6 : (u' ^ ((1:ℝ)/6)) ^ (6:ℕ) = u' := by
    rw [← Real.rpow_natCast (u' ^ ((1:ℝ)/6)) 6, ← Real.rpow_mul (by linarith)]
    norm_num
  have h1 : u * (1 - 2 / (9 * u) + Real.sqrt (2 / (9 * u)) * z) ^ 3 =
      (kld_core z (u ^ ((1:ℝ)/6))) ^ 3 := by
    conv_lhs => rw [← hs6]
    exact kld_core_eq z _ (by linarith)
  have h1' : u' * (1 - 2 / (9 * u') + Real.sqrt (2 / (9 * u')) * z) ^ 3 =
      (kld_core z (u' ^ ((1:ℝ)/6))) ^ 3 := by
    conv_lhs => rw [← hs'6]
    exact kld_core_eq z _ (by linarith)
  have hcore : (kld_core z (u ^ ((1:ℝ)/6))) ^ 3 ≤ (kld_core z (u' ^ ((1:ℝ)/6))) ^ 3 :=
    pow_le_pow_left (kld_core_pos z _ hs1 hz).le (kld_core_mono z _ _ hs1 hss hz hz4) 3
  calc u / (2 * e) * (1 - 2 / (9 * u) + Real.sqrt (2 / (9 * u)) * z) ^ 3
      = (u * (1 - 2 / (9 * u) + Real.sqrt (2 / (9 * u)) * z) ^ 3) / (2 * e) := by ring
    _ ≤ (u' * (1 - 2 / (9 * u') + Real.sqrt (2 / (9 * u')) * z) ^ 3) / (2 * e) := by
        rw [h1, h1']
        exact div_le_div_of_nonneg_right hcore (by positivity)
    _ = u' / (2 * e) * (1 - 2 / (9 * u') + Real.sqrt (2 / (9 * u')) * z) ^ 3 := by ring

/-- C3 (amended): for every filter state with `min_samples <= max_samples`, `pf_resample_limit` equals `min_samples` for k <= 1 and always lies in [`min_samples`, `max_samples`]; and it is non-decreasing for 2 <= k <= k- provided 0 <= pop_z <= 4 and 0 < pop_err (the defaults pop_z = 3, pop_err = 0.01 qualify).  Unrestricted monotonicity, as the claim states it, fails for large pop_z. -/
theorem claim_C3_amended (pf : pf_t) (k k' : ℤ)
    (hmm : pf.min_samples ≤ pf.max_samples) :
    (k ≤ 1 → pf_resample_limit pf k = pf.min_samples) ∧
    (pf.min_samples ≤ pf_resample_limit pf k ∧
      pf_resample_limit pf k ≤ pf.max_samples) ∧
    (0 ≤ pf.pop_z → pf.pop_z ≤ 4 → 0 < pf.pop_err → 2 ≤ k → k ≤ k' →
      pf_resample_limit pf k ≤ pf_resample_limit pf k') := by
  refine ⟨?_, ?_, ?_⟩
  · intro hk
    unfold pf_resample_limit
    rw [if_pos hk]
  · unfold pf_resample_limit
    dsimp only
    split_ifs <;> omega
  · intro hz0 hz4 he hk2 hkk
    unfold pf_resample_limit
    rw [if_neg (by omega : ¬ k ≤ 1), if_neg (by omega : ¬ k' ≤ 1)]
    dsimp only
    have hmono : (⌈((k:ℝ) - 1) / (2 * pf.pop_err) *
          (1 - 2 / (9 * ((k:ℝ) - 1)) + Real.sqrt (2 / (9 * ((k:ℝ) - 1))) * pf.pop_z) *
          (1 - 2 / (9 * ((k:ℝ) - 1)) + Real.sqrt (2 / (9 * ((k:ℝ) - 1))) * pf.pop_z) *
          (1 - 2 / (9 * ((k:ℝ) - 1)) + Real.sqrt (2 / (9 * ((k:ℝ) - 1))) * pf.pop_z)⌉ : ℤ) ≤
        ⌈((k':ℝ) - 1) / (2 * pf.pop_err) *
          (1 - 2 / (9 * ((k':ℝ) - 1)) + Real.sqrt (2 / (9 * ((k':ℝ) - 1))) * pf.pop_z) *
          (1 - 2 / (9 * ((k':ℝ) - 1)) + Real.sqrt (2 / (9 * ((k':ℝ) - 1))) * pf.pop_z) *
          (1 - 2 / (9 * ((k':ℝ) - 1)) + Real.sqrt (2 / (9 * ((k':ℝ) - 1))) * pf.pop_z)⌉ := by
      apply Int.ceil_le_ceil
      have hu : (1:ℝ) ≤ (k:ℝ) - 1 := by
        have : ((2:ℤ):ℝ) ≤ (k:ℝ) := Int.cast_le.mpr hk2
        push_cast at this
        linarith
      have huu : ((k:ℝ) - 1) ≤ ((k':ℝ) - 1) := by
        have : ((k:ℤ):ℝ) ≤ ((k':ℤ):ℝ) := Int.cast_le.mpr hkk
        linarith
      have := kld_raw_mono pf.pop_z pf.pop_err ((k:ℝ) - 1) ((k':ℝ) - 1) hu huu hz0 hz4 he
      calc ((k:ℝ) - 1) / (2 * pf.pop_err) *
            (1 - 2 / (9 * ((k:ℝ) - 1)) + Real.sqrt (2 / (9 * ((k:ℝ) - 1))) * pf.pop_z) *
            (1 - 2 / (9 * ((k:ℝ) - 1)) + Real.sqrt (2 / (9 * ((k:ℝ) - 1))) * pf.pop_z) *
            (1 - 2 / (9 * ((k:ℝ) - 1)) + Real.sqrt (2 / (9 * ((k:ℝ) - 1))) * pf.pop_z)
          = ((k:ℝ) - 1) / (2 * pf.pop_err) *
            (1 - 2 / (9 * ((k:ℝ) - 1)) + Real.sqrt (2 / (9 * ((k:ℝ) - 1))) * pf.pop_z) ^ 3 := by
            ring
        _ ≤ ((k':ℝ) - 1) / (2 * pf.pop_err) *
            (1 - 2 / (9 * ((k':ℝ) - 1)) + Real.sqrt (2 / (9 * ((k':ℝ) - 1))) * pf.pop_z) ^ 3 :=
            this
        _ = ((k':ℝ) - 1) / (2 * pf.pop_err) *
            (1 - 2 / (9 * ((k':ℝ) - 1)) + Real.sqrt (2 / (9 * ((k':ℝ) - 1))) * pf.pop_z) *
            (1 - 2 / (9 * ((k':ℝ) - 1)) + Real.sqrt (2 / (9 * ((k':ℝ) - 1))) * pf.pop_z) *
            (1 - 2 / (9 * ((k':ℝ) - 1)) + Real.sqrt (2 / (9 * ((k':ℝ) - 1))) * pf.pop_z) := by
            ring
    split_ifs <;> omega

/-- C3 witness: the amended statement instantiated at a concrete filter state and k = 2, k- = 3. -/
theorem claim_C3_witness :
    pfW2.min_samples ≤ pfW2.max_samples ∧
    (((2:ℤ) ≤ 1 → pf_resample_limit pfW2 2 = pfW2.min_samples) ∧
     (pfW2.min_samples ≤ pf_resample_limit pfW2 2 ∧
       pf_resample_limit pfW2 2 ≤ pfW2.max_samples) ∧
     (0 ≤ pfW2.pop_z → pfW2.pop_z ≤ 4 → 0 < pfW2.pop_err → 2 ≤ (2:ℤ) → (2:ℤ) ≤ 3 →
       pf_resample_limit pfW2 2 ≤ pf_resample_limit pfW2 3)) :=
  ⟨by norm_num [pfW2], claim_C3_amended pfW2 2 3 (by norm_num [pfW2])⟩

theorem sqrtC3a : Real.sqrt (2 / (9 * (((3:ℤ):ℝ) - 1))) = 1/3 := by
  rw [show (2 / (9 * (((3:ℤ):ℝ) - 1))) = (1/3)^2 by push_cast; norm_num]
  exact Real.sqrt_sq (by norm_num)

theorem sqrtC3b : Real.sqrt (2 / (9 * (((9:ℤ):ℝ) - 1))) = 1/6 := by
  rw [show (2 / (9 * (((9:ℤ):ℝ) - 1))) = (1/6)^2 by push_cast; norm_num]
  exact Real.sqrt_sq (by norm_num)

/-- C3 counterexample: with `min_samples` = 1 <= `max_samples` = 10000, pop_err = 1 and pop_z = 12, the limit at k = 3 is 117 but at k = 9 it is 106, so k to limit(k) is not non-decreasing on k >= 2. -/
theorem claim_C3_counterexample :
    pfC3.min_samples ≤ pfC3.max_samples ∧ (2:ℤ) ≤ 3 ∧ (3:ℤ) ≤ 9 ∧
    ¬ (pf_resample_limit pfC3 3 ≤ pf_resample_limit pfC3 9) := by
  have h3 : pf_resample_limit pfC3 3 = 117 := by
    unfold pf_resample_limit
    rw [if_neg (by norm_num : ¬ (3:ℤ) ≤ 1)]
    simp only [pfC3, sqrtC3a]
    rw [show (⌈(((3:ℤ):ℝ) - 1) / (2 * 1) *
        (1 - 2 / (9 * (((3:ℤ):ℝ) - 1)) + 1/3 * 12) *
        (1 - 2 / (9 * (((3:ℤ):ℝ) - 1)) + 1/3 * 12) *
        (1 - 2 / (9 * (((3:ℤ):ℝ) - 1)) + 1/3 * 12)⌉) = 117 by
      push_cast
      rw [show ((3:ℝ) - 1) / (2 * 1) *
        (1 - 2 / (9 * ((3:ℝ) - 1)) + 1/3 * 12) *
        (1 - 2 / (9 * ((3:ℝ) - 1)) + 1/3 * 12) *
        (1 - 2 / (9 * ((3:ℝ) - 1)) + 1/3 * 12) = 85184/729 by norm_num]
      rw [Int.ceil_eq_iff] <;> norm_num]
    norm_num
  have h9 : pf_resample_limit pfC3 9 = 106 := by
    unfold pf_resample_limit
    rw [if_neg (by norm_num : ¬ (9:ℤ) ≤ 1)]
    simp only [pfC3, sqrtC3b]
    rw [show (⌈(((9:ℤ):ℝ) - 1) / (2 * 1) *
        (1 - 2 / (9 * (((9:ℤ):ℝ) - 1)) + 1/6 * 12) *
        (1 - 2 / (9 * (((9:ℤ):ℝ) - 1)) + 1/6 * 12) *
        (1 - 2 / (9 * (((9:ℤ):ℝ) - 1)) + 1/6 * 12)⌉) = 106 by
      push_cast
      rw [show ((9:ℝ) - 1) / (2 * 1) *
        (1 - 2 / (9 * ((9:ℝ) - 1)) + 1/6 * 12) *
        (1 - 2 / (9 * ((9:ℝ) - 1)) + 1/6 * 12) *
        (1 - 2 / (9 * ((9:ℝ) - 1)) + 1/6 * 12) = 1225043/11664 by norm_num]
      rw [Int.ceil_eq_iff] <;> norm_num]
    norm_num
  refine ⟨by norm_num [pfC3], by norm_num, by norm_num, ?_⟩
  rw [h3, h9]
  norm_num

lemma fin2_ne_succ : ∀ a : Fin 2, a ≠ a + 1 := by decide

lemma pf_cluster_stats_samples (g : pf_vector → ℕ) (set : pf_sample_set) :
    (pf_cluster_stats g set).samples = set.samples := rfl

lemma finish_resample_current (pf : pf_t) (g : pf_vector → ℕ) (samples : List pf_sample)
    (tree : List (pf_vector × ℝ)) :
    (finish_resample pf g samples tree).current_set = pf.current_set + 1 := rfl

lemma finish_resample_samples (pf : pf_t) (g : pf_vector → ℕ) (samples : List pf_sample)
    (tree : List (pf_vector × ℝ)) :
    ((finish_resample pf g samples tree).sets (pf.current_set + 1)).samples = samples := by
  unfold finish_resample
  simp [pf_cluster_stats_samples]

lemma finish_resample_source (pf : pf_t) (g : pf_vector → ℕ) (samples : List pf_sample)
    (tree : List (pf_vector × ℝ)) :
    (finish_resample pf g samples tree).sets pf.current_set = pf.sets pf.current_set := by
  unfold finish_resample
  exact Function.update_noteq (fin2_ne_succ _) _ _

lemma init_set_current (pf : pf_t) (g : pf_vector → ℕ) (samples : List pf_sample) :
    (init_set pf g samples).current_set = pf.current_set := rfl

lemma init_set_samples (pf : pf_t) (g : pf_vector → ℕ) (samples : List pf_sample) :
    ((init_set pf g samples).sets pf.current_set).samples = samples := by
  unfold init_set
  simp [pf_cluster_stats_samples]

lemma weights_map_div (l : List pf_sample) (T : ℝ) (h1 : ∀ s ∈ l, s.weight = 1) :
    ((l.map fun s => { s with weight := s.weight / T }).map pf_sample.weight) =
      List.replicate l.length (1 / T) := by
  induction l with
  | nil => rfl
  | cons s l ih =>
    simp only [List.map_cons, List.length_cons, List.replicate_succ, List.cons.injEq]
    exact ⟨by rw [h1 s (List.mem_cons_self _ _)],
      ih fun s hs => h1 s (List.mem_cons_of_mem _ hs)⟩

lemma normalized_weights_ok (l : List pf_sample) (h1 : ∀ s ∈ l, s.weight = 1)
    (h0 : 0 < l.length) :
    weights_normalized (l.map fun s => { s with weight := s.weight / (l.length : ℝ) }) := by
  constructor
  · intro s hs
    rcases List.mem_map.mp hs with ⟨a, ha, rfl⟩
    rw [h1 a ha]
    positivity
  · rw [weights_map_div l _ h1, List.sum_replicate, nsmul_eq_mul]
    have : ((l.length : ℕ) : ℝ) ≠ 0 := by positivity
    field_simp

lemma getD_mem_of_weight_pos (src : List pf_sample) (i : ℕ)
    (h : 0 < (src.getD i default).weight) : src.getD i default ∈ src := by
  by_cases hi : i < src.length
  · rw [List.getD_eq_getElem src default hi]
    exact List.getElem_mem hi
  · rw [List.getD_eq_default src default (le_of_not_lt hi)] at h
    simp only [default] at h
    norm_num at h

lemma importance_loop_spec (pf : pf_t) (lc : List (pf_vector × ℝ) → ℕ) (draw : ℕ → ℕ)
    (src : List pf_sample) :
    ∀ (fuel t : ℕ) (acc : List pf_sample) (tree : List (pf_vector × ℝ)) (total : ℝ)
      (l : List pf_sample) (tr : List (pf_vector × ℝ)) (T : ℝ),
    importance_loop pf lc draw src fuel t acc tree total = some (l, tr, T) →
    (∀ s ∈ acc, s.weight = 1) → total = (acc.length : ℝ) →
    (∀ s ∈ l, s.weight = 1) ∧ T = (l.length : ℝ) ∧
      (∃ l2, l = acc ++ l2 ∧ ∀ s ∈ l2, ∃ a ∈ src, s.pose = a.pose) ∧
      acc.length ≤ l.length ∧ (0 < fuel → acc.length < l.length) := by
  intro fuel
  induction fuel with
  | zero =>
    intro t acc tree total l tr T hrun hw ht
    simp only [importance_loop, Option.some.injEq, Prod.mk.injEq] at hrun
    obtain ⟨rfl, -, rfl⟩ := hrun
    exact ⟨hw, ht, ⟨[], by simp⟩, le_refl _, by simp⟩
  | succ fuel ih =>
    intro t acc tree total l tr T hrun hw ht
    rw [importance_loop] at hrun
    by_cases hpos : 0 < (src.getD (draw t) default).weight
    · rw [if_pos hpos] at hrun
      have hmem := getD_mem_of_weight_pos src (draw t) hpos
      by_cases hbrk : ((acc ++ [(⟨(src.getD (draw t) default).pose, 1⟩ : pf_sample)]).length : ℤ) >
          pf_resample_limit pf (lc (((src.getD (draw t) default).pose, (1:ℝ)) :: tree))
      · rw [if_pos hbrk] at hrun
        simp only [Option.some.injEq, Prod.mk.injEq] at hrun
        obtain ⟨rfl, -, rfl⟩ := hrun
        refine ⟨?_, by simp [ht], ⟨[(⟨(src.getD (draw t) default).pose, 1⟩ : pf_sample)], rfl, ?_⟩, by simp, by simp⟩
        · intro s hs
          rcases List.mem_append.mp hs with h1 | h2
          · exact hw s h1
          · simp only [List.mem_singleton] at h2
            subst h2; rfl
        · intro s hs
          simp only [List.mem_singleton] at hs
          subst hs
          exact ⟨_, hmem, rfl⟩
      · rw [if_neg hbrk] at hrun
        have hacc' : ∀ s ∈ acc ++ [(⟨(src.getD (draw t) default).pose, 1⟩ : pf_sample)],
            s.weight = 1 := by
          intro s hs
          rcases List.mem_append.mp hs with h1 | h2
          · exact hw s h1
          · simp only [List.mem_singleton] at h2
            subst h2; rfl
        have ht' : total + 1 =
            ((acc ++ [(⟨(src.getD (draw t) default).pose, 1⟩ : pf_sample)]).length : ℝ) := by
          simp [ht]
        obtain ⟨hw2, hT2, ⟨l2, hl2, hsrc2⟩, hlen2, -⟩ :=
          ih (t + 1) _ _ _ l tr T hrun hacc' ht'
        refine ⟨hw2, hT2, ⟨(⟨(src.getD (draw t) default).pose, 1⟩ : pf_sample) :: l2, by
          simpa using hl2, ?_⟩, ?_, ?_⟩
        · intro s hs
          rcases List.mem_cons.mp hs with h1 | h2
          · subst h1; exact ⟨_, hmem, rfl⟩
          · exact hsrc2 s h2
        · simp at hlen2; omega
        · intro _; simp at hlen2; omega
    · rw [if_neg hpos] at hrun
      exact absurd hrun (by simp)

lemma map_free_loop_spec (map : map_t) (cand : ℕ → pf_vector) :
    ∀ (fuel t : ℕ) (p : pf_vector), map_free_loop map cand t fuel = some p →
      map_free_at map p.v0 p.v1 := by
  intro fuel
  induction fuel with
  | zero => intro t p h; exact absurd h (by simp [map_free_loop])
  | succ fuel ih =>
    intro t p h
    rw [map_free_loop] at h
    by_cases hf : map_free_at map (cand t).v0 (cand t).v1
    · rw [if_pos hf] at h
      simp only [Option.some.injEq] at h
      subst h; exact hf
    · rw [if_neg hf] at h
      exact ih (t + 1) p h

lemma inject_free_spec (map : map_t) (cand : ℕ → ℕ → pf_vector) (fuel : ℕ) :
    ∀ (k i : ℕ) (acc : List pf_sample) (tree : List (pf_vector × ℝ)) (total : ℝ)
      (l : List pf_sample) (tr : List (pf_vector × ℝ)) (T : ℝ),
    inject_free_samples map cand fuel i k (acc, tree, total) = some (l, tr, T) →
    (∀ s ∈ acc, s.weight = 1) → total = (acc.length : ℝ) →
    (∀ s ∈ l, s.weight = 1) ∧ T = (l.length : ℝ) ∧
      (∃ l2, l = acc ++ l2 ∧ ∀ s ∈ l2, map_free_at map s.pose.v0 s.pose.v1) ∧
      l.length = acc.length + k := by
  intro k
  induction k with
  | zero =>
    intro i acc tree total l tr T hrun hw ht
    simp only [inject_free_samples, Option.some.injEq, Prod.mk.injEq] at hrun
    obtain ⟨rfl, -, rfl⟩ := hrun
    exact ⟨hw, ht, ⟨[], by simp⟩, by simp⟩
  | succ k ih =>
    intro i acc tree total l tr T hrun hw ht
    rw [inject_free_samples] at hrun
    cases hloop : map_free_loop map (cand i) 0 fuel with
    | none => rw [hloop] at hrun; exact absurd hrun (by simp)
    | some tmp =>
      rw [hloop] at hrun
      have hfree := map_free_loop_spec map (cand i) fuel 0 tmp hloop
      have hacc' : ∀ s ∈ acc ++ [(⟨tmp, 1⟩ : pf_sample)], s.weight = 1 := by
        intro s hs
        rcases List.mem_append.mp hs with h1 | h2
        · exact hw s h1
        · simp only [List.mem_singleton] at h2; subst h2; rfl
      have ht' : total + 1 = ((acc ++ [(⟨tmp, 1⟩ : pf_sample)]).length : ℝ) := by simp [ht]
      obtain ⟨hw2, hT2, ⟨l2, hl2, hfree2⟩, hlen2⟩ := ih (i + 1) _ _ _ l tr T hrun hacc' ht'
      refine ⟨hw2, hT2, ⟨(⟨tmp, 1⟩ : pf_sample) :: l2, by simpa using hl2, ?_⟩, by
        simp at hlen2; omega⟩
      intro s hs
      rcases List.mem_cons.mp hs with h1 | h2
      · subst h1; exact hfree
      · exact hfree2 s h2

lemma mapM_length_option {α β : Type} (f : α → Option β) :
    ∀ (l : List α) (l' : List β), l.mapM f = some l' → l'.length = l.length := by
  intro l
  induction l with
  | nil => intro l' h; simp only [List.mapM_nil, Option.pure_def, Option.some.injEq] at h; simp [← h]
  | cons a l ih =>
    intro l' h
    rw [List.mapM_cons] at h
    cases hfa : f a with
    | none => rw [hfa] at h; exact absurd h (by simp)
    | some b =>
      rw [hfa] at h
      cases hml : l.mapM f with
      | none => rw [hml] at h; exact absurd h (by simp)
      | some bs =>
        rw [hml] at h
        simp at h
        subst h
        simp [ih bs hml]

lemma mapM_forall_option {α β : Type} (f : α → Option β) (P : β → Prop)
    (hf : ∀ a b, f a = some b → P b) :
    ∀ (l : List α) (l' : List β), l.mapM f = some l' → ∀ b ∈ l', P b := by
  intro l
  induction l with
  | nil => intro l' h; simp only [List.mapM_nil, Option.pure_def, Option.some.injEq] at h; simp [← h]
  | cons a l ih =>
    intro l' h
    rw [List.mapM_cons] at h
    cases hfa : f a with
    | none => rw [hfa] at h; exact absurd h (by simp)
    | some b =>
      rw [hfa] at h
      cases hml : l.mapM f with
      | none => rw [hml] at h; exact absurd h (by simp)
      | some bs =>
        rw [hml] at h
        simp at h
        subst h
        intro c hc
        rcases List.mem_cons.mp hc with h1 | h2
        · subst h1; exact hf a c hfa
        · exact ih bs hml c h2

lemma foldl_append_inv {α σ : Type*} (proj : σ → List pf_sample) (P : pf_sample → Prop)
    (g : σ → α → σ)
    (hg : ∀ st a, ∃ l2, proj (g st a) = proj st ++ l2 ∧ ∀ s ∈ l2, P s) :
    ∀ (l : List α) (st : σ), ∃ l2, proj (l.foldl g st) = proj st ++ l2 ∧ ∀ s ∈ l2, P s := by
  intro l
  induction l with
  | nil => intro st; exact ⟨[], by simp⟩
  | cons a l ih =>
    intro st
    obtain ⟨l2, h2, hp2⟩ := hg st a
    obtain ⟨l3, h3, hp3⟩ := ih (g st a)
    refine ⟨l2 ++ l3, ?_, ?_⟩
    · rw [List.foldl_cons, h3, h2, List.append_assoc]
    · intro s hs
      rcases List.mem_append.mp hs with h | h
      exacts [hp2 s h, hp3 s h]

lemma foldl_diff_inv {α σ : Type*} (len : σ → ℕ) (tot : σ → ℝ) (g : σ → α → σ)
    (hg : ∀ st a, tot (g st a) - (len (g st a) : ℝ) = tot st - (len st : ℝ)) :
    ∀ (l : List α) (st : σ),
      tot (l.foldl g st) - ((len (l.foldl g st)) : ℝ) = tot st - (len st : ℝ) := by
  intro l
  induction l with
  | nil => intro st; rfl
  | cons a l ih => intro st; rw [List.foldl_cons, ih, hg]

lemma hyps_inject_extends (map : map_t) (nHyp nNew : ℕ) (hyps : ℕ → hyp_t)
    (bigauss : ℕ → ℕ → ℝ → ℝ → ℝ → ℝ × ℝ) (uth : ℕ → ℕ → ℝ)
    (st : List pf_sample × List (pf_vector × ℝ) × ℝ) :
    ∃ l2, (hyps_inject map nHyp nNew hyps bigauss uth st).1 = st.1 ++ l2 ∧
      ∀ s ∈ l2, s.weight = 1 ∧ map_free_at map s.pose.v0 s.pose.v1 := by
  unfold hyps_inject
  apply foldl_append_inv Prod.fst _ _ ?_ (List.range nHyp) st
  intro st1 j
  apply foldl_append_inv Prod.fst _ _ ?_ (List.range nNew) st1
  intro st2 i
  dsimp only
  split_ifs with hfree
  · refine ⟨[⟨hyp_cand (hyps j) (bigauss j i) (uth j i), 1⟩], rfl, ?_⟩
    intro s hs
    simp only [List.mem_singleton] at hs
    subst hs
    exact ⟨rfl, hfree⟩
  · exact ⟨[], by simp⟩

lemma hyps_inject_total (map : map_t) (nHyp nNew : ℕ) (hyps : ℕ → hyp_t)
    (bigauss : ℕ → ℕ → ℝ → ℝ → ℝ → ℝ × ℝ) (uth : ℕ → ℕ → ℝ)
    (st : List pf_sample × List (pf_vector × ℝ) × ℝ) :
    (hyps_inject map nHyp nNew hyps bigauss uth st).2.2 -
      ((hyps_inject map nHyp nNew hyps bigauss uth st).1.length : ℝ) =
      st.2.2 - (st.1.length : ℝ) := by
  have hinner : ∀ (j : ℕ) (st2 : List pf_sample × List (pf_vector × ℝ) × ℝ) (i : ℕ),
      ((fun st2 i =>
          let tmp := hyp_cand (hyps j) (bigauss j i) (uth j i)
          if map_free_at map tmp.v0 tmp.v1 then
            (st2.1 ++ [⟨tmp, 1⟩], (tmp, (1 : ℝ)) :: st2.2.1, st2.2.2 + 1)
          else st2) st2 i).2.2 -
        (((fun st2 i =>
          let tmp := hyp_cand (hyps j) (bigauss j i) (uth j i)
          if map_free_at map tmp.v0 tmp.v1 then
            (st2.1 ++ [⟨tmp, 1⟩], (tmp, (1 : ℝ)) :: st2.2.1, st2.2.2 + 1)
          else st2) st2 i).1.length : ℝ) = st2.2.2 - (st2.1.length : ℝ) := by
    intro j st2 i
    dsimp only
    split_ifs with h
    · simp only [List.length_append, List.length_singleton]
      push_cast
      ring
    · rfl
  unfold hyps_inject
  apply foldl_diff_inv (fun st => st.1.length) (fun st => st.2.2) _ ?_ (List.range nHyp) st
  intro st1 j
  exact foldl_diff_inv (fun st => st.1.length) (fun st => st.2.2) _ (hinner j)
    (List.range nNew) st1

lemma hyps3_transfer_extends (uth : ℕ → ℝ) (aS : List pf_sample)
    (st : List pf_sample × List (pf_vector × ℝ)) :
    ∃ l2, (hyps3_transfer uth aS st).1 = st.1 ++ l2 ∧ ∀ s ∈ l2, s.weight = 1 := by
  unfold hyps3_transfer
  apply foldl_append_inv Prod.fst _ _ ?_ aS.enum st
  intro st2 pi
  dsimp only
  refine ⟨[⟨⟨pi.2.pose.v0, pi.2.pose.v1, (uth pi.1 - 0.5) * 2 * Real.pi⟩, 1⟩], rfl, ?_⟩
  intro s hs
  simp only [List.mem_singleton] at hs
  subst hs
  rfl

lemma hyps3_round_spec (pf : pf_t) (map : map_t) (hyp : hyp_t)
    (lcA : List (pf_vector × ℝ) → ℕ) (bg1 bg2 : ℕ → ℝ → ℝ → ℝ → ℝ × ℝ)
    (uth : ℕ → ℝ) (growFuel : ℕ) (nMinPart nNew : ℤ)
    (st r : (List pf_sample × List (pf_vector × ℝ)) × (List pf_sample × List (pf_vector × ℝ)))
    (h : hyps3_round pf map hyp lcA bg1 bg2 uth growFuel nMinPart nNew st = some r) :
    ∃ l2, r.2.1 = st.2.1 ++ l2 ∧ ∀ s ∈ l2, s.weight = 1 := by
  unfold hyps3_round at h
  dsimp only at h
  cases hg : hyps3_grow pf map hyp lcA bg2 nNew 0 growFuel
      (hyps3_seed map hyp bg1 nMinPart.toNat) with
  | none => rw [hg] at h; exact absurd h (by simp)
  | some a' =>
    rw [hg] at h
    simp only [Option.some.injEq] at h
    subst h
    exact hyps3_transfer_extends (uth) a'.1 st.2

lemma hyps3_rounds_inv (pf : pf_t) (map : map_t) (hyps : ℕ → hyp_t)
    (lcA : List (pf_vector × ℝ) → ℕ) (bg1 bg2 : ℕ → ℕ → ℝ → ℝ → ℝ → ℝ × ℝ)
    (uth : ℕ → ℕ → ℝ) (growFuel : ℕ) (nMinPart nNew : ℤ) :
    ∀ (l : List ℕ)
      (st r : (List pf_sample × List (pf_vector × ℝ)) × (List pf_sample × List (pf_vector × ℝ))),
    l.foldlM (fun st j => hyps3_round pf map (hyps j) lcA (bg1 j) (bg2 j) (uth j)
      growFuel nMinPart nNew st) st = some r →
    ∃ l2, r.2.1 = st.2.1 ++ l2 ∧ ∀ s ∈ l2, s.weight = 1 := by
  intro l
  induction l with
  | nil =>
    intro st r h
    simp only [List.foldlM_nil, Option.pure_def, Option.some.injEq] at h
    subst h
    exact ⟨[], by simp⟩
  | cons j l ih =>
    intro st r h
    rw [List.foldlM_cons] at h
    cases hr1 : hyps3_round pf map (hyps j) lcA (bg1 j) (bg2 j) (uth j)
        growFuel nMinPart nNew st with
    | none => rw [hr1] at h; exact absurd h (by simp)
    | some st1 =>
      rw [hr1] at h
      obtain ⟨l3, h3, hp3⟩ := ih st1 r h
      obtain ⟨l2, h2, hp2⟩ := hyps3_round_spec pf map (hyps j) lcA (bg1 j) (bg2 j) (uth j)
        growFuel nMinPart nNew st st1 hr1
      refine ⟨l2 ++ l3, by rw [h3, h2, List.append_assoc], ?_⟩
      intro s hs
      rcases List.mem_append.mp hs with hm | hm
      exacts [hp2 s hm, hp3 s hm]

lemma map_weight_mk (l : List pf_vector) (w : ℝ) :
    ((l.map fun p => (⟨p, w⟩ : pf_sample)).map pf_sample.weight) =
      List.replicate l.length w := by
  induction l with
  | nil => rfl
  | cons p l ih => simp [ih, List.replicate_succ]

lemma const_weights_ok (l : List pf_vector) (w : ℝ) (hw : w = 1 / (l.length : ℝ))
    (h0 : 0 < l.length) : weights_normalized (l.map fun p => ⟨p, w⟩) := by
  subst hw
  constructor
  · intro s hs
    rcases List.mem_map.mp hs with ⟨p, _, rfl⟩
    positivity
  · rw [map_weight_mk, List.sum_replicate, nsmul_eq_mul]
    have : ((l.length : ℕ) : ℝ) ≠ 0 := by positivity
    field_simp

lemma current_samples_finish (pf : pf_t) (g : pf_vector → ℕ) (samples : List pf_sample)
    (tree : List (pf_vector × ℝ)) :
    current_samples (finish_resample pf g samples tree) = samples := by
  unfold current_samples
  exact finish_resample_samples pf g samples tree

lemma current_samples_init (pf : pf_t) (g : pf_vector → ℕ) (samples : List pf_sample) :
    current_samples (init_set pf g samples) = samples := by
  unfold current_samples
  exact init_set_samples pf g samples

lemma toNat_cast_real (a : ℤ) (h : 0 ≤ a) : ((a.toNat : ℕ) : ℝ) = (a : ℝ) := by
  exact_mod_cast Int.toNat_of_nonneg h

lemma range_map_mk (n : ℕ) (g : ℕ → pf_vector) (w : ℝ) :
    (List.range n).map (fun i => (⟨g i, w⟩ : pf_sample)) =
      ((List.range n).map g).map fun p => ⟨p, w⟩ := by
  rw [List.map_map]
  rfl

/-- C1 (amended): after any initialization operation (`pf_init`, `pf_init_map`, `pf_init_model`, `pf_init_to_point`) or any resampling operation (`pf_update_resample`, `pf_update_resample_map`, `pf_update_resample_addParticle`, `pf_update_resample_hyps`, `pf_update_resample_hyps_2`, `pf_update_resample_hyps_3`) returns, for every map, callback oracle and random stream, PROVIDED the operation s effective population target is positive -- `0 < max_samples` for the init operations, `0 < nMaxParticles` for `pf_update_resample`, a positive copy-or-inject target for `pf_update_resample_addParticle`, `0 < max_samples - overHead_samples` for the map and hyps variants, `1000 < max_samples` for `pf_update_resample_hyps_2` (its importance bound is the hard-coded `max_samples - 1000`), and a nonempty source set for `pf_update_resample_hyps_3` -- every weight in the resulting current sample set is nonnegative and the weights sum to exactly 1.  Without these side conditions the claim is false: a run that the code completes can leave the current set empty, with weight sum 0. -/
theorem claim_C1_weights (pf : pf_t) :
    (∀ (mean : pf_vector) (cov : pf_matrix) (gsample : pf_vector → pf_matrix → ℕ → pf_vector)
        (getCluster : pf_vector → ℕ), 0 < pf.max_samples →
      weights_normalized (current_samples (pf_init pf mean cov gsample getCluster))) ∧
    (∀ (map : map_t) (u : ℕ → ℕ → ℝ × ℝ) (fuel : ℕ) (getCluster : pf_vector → ℕ)
        (pf' : pf_t), 0 < pf.max_samples →
      pf_init_map pf map u fuel getCluster = some pf' →
      weights_normalized (current_samples pf')) ∧
    (∀ (init_fn : ℕ → pf_vector) (getCluster : pf_vector → ℕ), 0 < pf.max_samples →
      weights_normalized (current_samples (pf_init_model pf init_fn getCluster))) ∧
    (∀ (map : map_t) (x y var : ℝ) (u : ℕ → ℕ → ℝ × ℝ × ℝ) (fuel : ℕ)
        (getCluster : pf_vector → ℕ) (pf' : pf_t), 0 < pf.max_samples →
      pf_init_to_point pf map x y var u fuel getCluster = some pf' →
      weights_normalized (current_samples pf')) ∧
    (∀ (nMaxParticles : ℤ) (draw : ℕ → ℕ) (lc : List (pf_vector × ℝ) → ℕ)
        (getCluster : pf_vector → ℕ) (pf' : pf_t), 0 < nMaxParticles →
      pf_update_resample pf nMaxParticles draw lc getCluster = some pf' →
      weights_normalized (current_samples pf')) ∧
    (∀ (nPartToAdd : ℤ) (map : map_t) (draw : ℕ → ℕ) (u : ℕ → ℕ → ℝ × ℝ × ℝ) (fuel : ℕ)
        (lc : List (pf_vector × ℝ) → ℕ) (getCluster : pf_vector → ℕ) (pf' : pf_t),
      0 < pf.max_samples - nPartToAdd ∨ 0 < nPartToAdd →
      pf_update_resample_addParticle pf nPartToAdd map draw u fuel lc getCluster = some pf' →
      weights_normalized (current_samples pf')) ∧
    (∀ (map : map_t) (draw : ℕ → ℕ) (u : ℕ → ℕ → ℝ × ℝ × ℝ) (fuel : ℕ)
        (lc : List (pf_vector × ℝ) → ℕ) (getCluster : pf_vector → ℕ) (pf' : pf_t),
      0 < pf.max_samples - pf.overHead_samples →
      pf_update_resample_map pf map draw u fuel lc getCluster = some pf' →
      weights_normalized (current_samples pf')) ∧
    (∀ (map : map_t) (nHyp : ℤ) (hyps : ℕ → hyp_t) (nParticle : ℤ) (draw : ℕ → ℕ)
        (lc : List (pf_vector × ℝ) → ℕ) (bigauss : ℕ → ℕ → ℝ → ℝ → ℝ → ℝ × ℝ)
        (uth : ℕ → ℕ → ℝ) (getCluster : pf_vector → ℕ) (pf' : pf_t) (b : ℤ),
      0 < pf.max_samples - pf.overHead_samples →
      pf_update_resample_hyps pf map nHyp hyps nParticle draw lc bigauss uth getCluster =
        some (pf', b) →
      weights_normalized (current_samples pf')) ∧
    (∀ (map : map_t) (nHyp : ℤ) (hyps : ℕ → hyp_t) (over_head : ℤ) (draw : ℕ → ℕ)
        (lc : List (pf_vector × ℝ) → ℕ) (bigauss : ℕ → ℕ → ℝ → ℝ → ℝ → ℝ × ℝ)
        (uth : ℕ → ℕ → ℝ) (getCluster : pf_vector → ℕ) (pf' : pf_t),
      1000 < pf.max_samples →
      pf_update_resample_hyps_2 pf map nHyp hyps over_head draw lc bigauss uth getCluster =
        some pf' →
      weights_normalized (current_samples pf')) ∧
    (∀ (map : map_t) (nHyp : ℤ) (hyps : ℕ → hyp_t) (draw : ℕ → ℕ)
        (lc lcA : List (pf_vector × ℝ) → ℕ) (bg1 bg2 : ℕ → ℕ → ℝ → ℝ → ℝ → ℝ × ℝ)
        (uth : ℕ → ℕ → ℝ) (growFuel : ℕ) (getCluster : pf_vector → ℕ) (pf' : pf_t),
      0 < (pf.sets pf.current_set).samples.length →
      pf.overHead_samples < pf.max_samples →
      pf_update_resample_hyps_3 pf map nHyp hyps draw lc lcA bg1 bg2 uth growFuel
        getCluster = some pf' →
      weights_normalized (current_samples pf')) := by
  refine ⟨?_, ?_, ?_, ?_, ?_, ?_, ?_, ?_, ?_, ?_⟩
  · -- pf_init
    intro mean cov gsample getCluster hmax
    rw [show current_samples (pf_init pf mean cov gsample getCluster) =
      (List.range pf.max_samples.toNat).map (fun i =>
        (⟨gsample mean cov i, 1 / (pf.max_samples : ℝ)⟩ : pf_sample)) from
      current_samples_init pf getCluster _]
    rw [range_map_mk]
    apply const_weights_ok
    · rw [List.length_map, List.length_range, toNat_cast_real _ hmax.le]
    · rw [List.length_map, List.length_range]
      omega
  · -- pf_init_map
    intro map u fuel getCluster pf' hmax hrun
    unfold pf_init_map at hrun
    split at hrun
    · exact absurd hrun (by simp)
    next poses hm =>
      simp only [Option.some.injEq] at hrun
      subst hrun
      rw [current_samples_init]
      apply const_weights_ok
      · rw [mapM_length_option _ _ _ hm, List.length_range, toNat_cast_real _ hmax.le]
      · rw [mapM_length_option _ _ _ hm, List.length_range]
        omega
  · -- pf_init_model
    intro init_fn getCluster hmax
    rw [show current_samples (pf_init_model pf init_fn getCluster) =
      (List.range pf.max_samples.toNat).map (fun i =>
        (⟨init_fn i, 1 / (pf.max_samples : ℝ)⟩ : pf_sample)) from
      current_samples_init pf getCluster _]
    rw [range_map_mk]
    apply const_weights_ok
    · rw [List.length_map, List.length_range, toNat_cast_real _ hmax.le]
    · rw [List.length_map, List.length_range]
      omega
  · -- pf_init_to_point
    intro map x y var u fuel getCluster pf' hmax hrun
    unfold pf_init_to_point at hrun
    split at hrun
    · exact absurd hrun (by simp)
    next poses hm =>
      simp only [Option.some.injEq] at hrun
      subst hrun
      rw [current_samples_init]
      apply const_weights_ok
      · rw [mapM_length_option _ _ _ hm, List.length_range, toNat_cast_real _ hmax.le]
      · rw [mapM_length_option _ _ _ hm, List.length_range]
        omega
  · -- pf_update_resample
    intro nMaxParticles draw lc getCluster pf' hmax hrun
    unfold pf_update_resample at hrun
    dsimp only at hrun
    split at hrun
    · exact absurd hrun (by simp)
    next bs tree total himp =>
      simp only [Option.some.injEq] at hrun
      subst hrun
      obtain ⟨hall, hT, -, -, hpos⟩ := importance_loop_spec pf lc draw _ _ _ _ _ _ _ _ _
        himp (by simp) (by simp)
      have hlen : 0 < bs.length := by
        have := hpos (by omega)
        simpa using this
      rw [current_samples_finish, hT]
      exact normalized_weights_ok bs hall hlen
  · -- pf_update_resample_addParticle
    intro nPartToAdd map draw u fuel lc getCluster pf' hcap hrun
    unfold pf_update_resample_addParticle at hrun
    dsimp only at hrun
    split at hrun
    · exact absurd hrun (by simp)
    next st himp =>
      obtain ⟨bs0, tree0, total0⟩ := st
      split at hrun
      · exact absurd hrun (by simp)
      next bs tree total hinj =>
        simp only [Option.some.injEq] at hrun
        subst hrun
        obtain ⟨hall0, hT0, -, -, hpos0⟩ := importance_loop_spec pf lc draw _ _ _ _ _ _ _ _ _
          himp (by simp) (by simp)
        obtain ⟨hall, hT, -, hlen⟩ := inject_free_spec map _ fuel _ _ _ _ _ _ _ _
          hinj hall0 hT0
        rw [current_samples_finish, hT]
        apply normalized_weights_ok bs hall
        rcases hcap with h | h
        · have h1 := hpos0 (by omega)
          simp only [List.length_nil] at h1
          omega
        · have h1 : 0 < nPartToAdd.toNat := by omega
          omega
  · -- pf_update_resample_map
    intro map draw u fuel lc getCluster pf' hcap hrun
    unfold pf_update_resample_map at hrun
    dsimp only at hrun
    split at hrun
    · exact absurd hrun (by simp)
    next st himp =>
      obtain ⟨bs0, tree0, total0⟩ := st
      split at hrun
      · exact absurd hrun (by simp)
      next bs tree total hinj =>
        simp only [Option.some.injEq] at hrun
        subst hrun
        obtain ⟨hall0, hT0, -, -, hpos0⟩ := importance_loop_spec pf lc draw _ _ _ _ _ _ _ _ _
          himp (by simp) (by simp)
        have hlen0 : 0 < bs0.length := by
          have := hpos0 (by omega)
          simpa using this
        rw [current_samples_finish]
        by_cases hcond : ((bs0.length : ℤ) < pf.min_samples + 10)
        · rw [if_pos hcond] at hinj
          obtain ⟨hall, hT, -, hlen⟩ := inject_free_spec map _ fuel _ _ _ _ _ _ _ _
            hinj hall0 hT0
          rw [hT]
          exact normalized_weights_ok bs hall (by omega)
        · rw [if_neg hcond] at hinj
          simp only [Option.some.injEq, Prod.mk.injEq] at hinj
          obtain ⟨rfl, -, rfl⟩ := hinj
          rw [hT0]
          exact normalized_weights_ok bs0 hall0 hlen0
  · -- pf_update_resample_hyps
    intro map nHyp hyps nParticle draw lc bigauss uth getCluster pf' b hcap hrun
    unfold pf_update_resample_hyps at hrun
    dsimp only at hrun
    split at hrun
    · exact absurd hrun (by simp)
    next st himp =>
      obtain ⟨bs0, tree0, total0⟩ := st
      simp only [Option.some.injEq, Prod.mk.injEq] at hrun
      obtain ⟨hpf', -⟩ := hrun
      subst hpf'
      have himp2 : importance_loop pf lc draw (pf.sets pf.current_set).samples
          (pf.max_samples - pf.overHead_samples).toNat 0 [] [] 0 =
          some (bs0, tree0, total0) := himp
      obtain ⟨hall0, hT0, -, -, hpos0⟩ := importance_loop_spec pf lc draw _ _ _ _ _ _ _ _ _
        himp2 (by simp) (by simp)
      have hlen0 : 0 < bs0.length := by
        have := hpos0 (by omega)
        simpa using this
      obtain ⟨l2, hext, hl2⟩ := hyps_inject_extends map nHyp.toNat
        (resample_hyps_budget pf bs0.length nParticle nHyp).toNat hyps bigauss uth
        (bs0, tree0, total0)
      have hdiff := hyps_inject_total map nHyp.toNat
        (resample_hyps_budget pf bs0.length nParticle nHyp).toNat hyps bigauss uth
        (bs0, tree0, total0)
      have hallr : ∀ s ∈ (hyps_inject map nHyp.toNat
          (resample_hyps_budget pf bs0.length nParticle nHyp).toNat hyps bigauss uth
          (bs0, tree0, total0)).1, s.weight = 1 := by
        rw [hext]
        intro s hs
        rcases List.mem_append.mp hs with hm | hm
        · exact hall0 s hm
        · exact (hl2 s hm).1
      have hTr : (hyps_inject map nHyp.toNat
          (resample_hyps_budget pf bs0.length nParticle nHyp).toNat hyps bigauss uth
          (bs0, tree0, total0)).2.2 =
          ((hyps_inject map nHyp.toNat
          (resample_hyps_budget pf bs0.length nParticle nHyp).toNat hyps bigauss uth
          (bs0, tree0, total0)).1.length : ℝ) := by
        have h1 : total0 - (bs0.length : ℝ) = 0 := by rw [hT0]; ring
        have h2 := hdiff
        rw [show ((bs0, tree0, total0).2.2 : ℝ) = total0 from rfl,
          show (bs0, tree0, total0).1 = bs0 from rfl, h1] at h2
        linarith
      have hlenr : 0 < (hyps_inject map nHyp.toNat
          (resample_hyps_budget pf bs0.length nParticle nHyp).toNat hyps bigauss uth
          (bs0, tree0, total0)).1.length := by
        rw [hext]
        simp only [List.length_append]
        omega
      rw [current_samples_finish, hTr]
      exact normalized_weights_ok _ hallr hlenr
  · -- pf_update_resample_hyps_2
    intro map nHyp hyps over_head draw lc bigauss uth getCluster pf' hmax hrun
    unfold pf_update_resample_hyps_2 at hrun
    dsimp only at hrun
    split at hrun
    · exact absurd hrun (by simp)
    next bs tree total himp =>
      simp only [Option.some.injEq] at hrun
      subst hrun
      obtain ⟨hall, hT, -, -, hpos⟩ := importance_loop_spec _ lc draw _ _ _ _ _ _ _ _ _
        himp (by simp) (by simp)
      have hlen : 0 < bs.length := by
        have := hpos (by omega)
        simpa using this
      rw [current_samples_finish]
      exact normalized_weights_ok bs hall hlen
  · -- pf_update_resample_hyps_3
    intro map nHyp hyps draw lc lcA bg1 bg2 uth growFuel getCluster pf' hlenA hoh hrun
    unfold pf_update_resample_hyps_3 at hrun
    dsimp only at hrun
    split at hrun
    · exact absurd hrun (by simp)
    next bs0 treeB0 total0 himp =>
      split at hrun
      · exact absurd hrun (by simp)
      next r hfold =>
        simp only [Option.some.injEq] at hrun
        subst hrun
        obtain ⟨hall0, hT0, -, -, hpos0⟩ := importance_loop_spec pf lc draw _ _ _ _ _ _ _ _ _
          himp (by simp) (by simp)
        have hfuel : 0 < (if pf.max_samples - ((pf.sets pf.current_set).samples.length : ℤ) <
            pf.overHead_samples then pf.max_samples - pf.overHead_samples
            else ((pf.sets pf.current_set).samples.length : ℤ)).toNat := by
          split_ifs <;> omega
        have hlen0 : 0 < bs0.length := by
          have := hpos0 hfuel
          simpa using this
        obtain ⟨l2, hext, hl2⟩ := hyps3_rounds_inv pf map hyps lcA bg1 bg2 uth growFuel _ _
          (List.range nHyp.toNat) _ r hfold
        have hallb : ∀ s ∈ r.2.1, s.weight = 1 := by
          rw [hext]
          intro s hs
          rcases List.mem_append.mp hs with hm | hm
          · exact hall0 s hm
          · exact hl2 s hm
        have hlenb : 0 < r.2.1.length := by
          rw [hext]
          simp only [List.length_append]
          omega
        rw [current_samples_finish]
        exact normalized_weights_ok r.2.1 hallb hlenb

/-- C6 (amended): every sample `pf_init_map` puts in the resulting set sits on a valid free map cell; for `pf_update_resample_map`, `pf_update_resample_addParticle` and `pf_update_resample_hyps` the resulting set splits into the importance-resampled samples, whose poses are copied unchecked from the source set, and the newly injected samples, which all satisfy the free-cell predicate.  The claim s "every sample" holds only for the injected ones. -/
theorem claim_C6_amended (pf : pf_t) :
    (∀ (map : map_t) (u : ℕ → ℕ → ℝ × ℝ) (fuel : ℕ) (getCluster : pf_vector → ℕ)
        (pf' : pf_t),
      pf_init_map pf map u fuel getCluster = some pf' →
      ∀ s ∈ current_samples pf', map_free_at map s.pose.v0 s.pose.v1) ∧
    (∀ (map : map_t) (draw : ℕ → ℕ) (u : ℕ → ℕ → ℝ × ℝ × ℝ) (fuel : ℕ)
        (lc : List (pf_vector × ℝ) → ℕ) (getCluster : pf_vector → ℕ) (pf' : pf_t),
      pf_update_resample_map pf map draw u fuel lc getCluster = some pf' →
      ∃ b1 b2, current_samples pf' = b1 ++ b2 ∧
        (∀ s ∈ b1, ∃ a ∈ (pf.sets pf.current_set).samples, s.pose = a.pose) ∧
        (∀ s ∈ b2, map_free_at map s.pose.v0 s.pose.v1)) ∧
    (∀ (nPartToAdd : ℤ) (map : map_t) (draw : ℕ → ℕ) (u : ℕ → ℕ → ℝ × ℝ × ℝ) (fuel : ℕ)
        (lc : List (pf_vector × ℝ) → ℕ) (getCluster : pf_vector → ℕ) (pf' : pf_t),
      pf_update_resample_addParticle pf nPartToAdd map draw u fuel lc getCluster = some pf' →
      ∃ b1 b2, current_samples pf' = b1 ++ b2 ∧
        (∀ s ∈ b1, ∃ a ∈ (pf.sets pf.current_set).samples, s.pose = a.pose) ∧
        (∀ s ∈ b2, map_free_at map s.pose.v0 s.pose.v1)) ∧
    (∀ (map : map_t) (nHyp : ℤ) (hyps : ℕ → hyp_t) (nParticle : ℤ) (draw : ℕ → ℕ)
        (lc : List (pf_vector × ℝ) → ℕ) (bigauss : ℕ → ℕ → ℝ → ℝ → ℝ → ℝ × ℝ)
        (uth : ℕ → ℕ → ℝ) (getCluster : pf_vector → ℕ) (pf' : pf_t) (b : ℤ),
      pf_update_resample_hyps pf map nHyp hyps nParticle draw lc bigauss uth getCluster =
        some (pf', b) →
      ∃ b1 b2, current_samples pf' = b1 ++ b2 ∧
        (∀ s ∈ b1, ∃ a ∈ (pf.sets pf.current_set).samples, s.pose = a.pose) ∧
        (∀ s ∈ b2, map_free_at map s.pose.v0 s.pose.v1)) := by
  refine ⟨?_, ?_, ?_, ?_⟩
  · -- pf_init_map
    intro map u fuel getCluster pf' hrun
    unfold pf_init_map at hrun
    split at hrun
    · exact absurd hrun (by simp)
    next poses hm =>
      simp only [Option.some.injEq] at hrun
      subst hrun
      rw [current_samples_init]
      intro s hs
      rcases List.mem_map.mp hs with ⟨p, hp, rfl⟩
      exact mapM_forall_option _ _ (fun i q hq => map_free_loop_spec map _ fuel 0 q hq)
        _ _ hm p hp
  · -- pf_update_resample_map
    intro map draw u fuel lc getCluster pf' hrun
    unfold pf_update_resample_map at hrun
    dsimp only at hrun
    split at hrun
    · exact absurd hrun (by simp)
    next st himp =>
      obtain ⟨bs0, tree0, total0⟩ := st
      split at hrun
      · exact absurd hrun (by simp)
      next bs tree total hinj =>
        simp only [Option.some.injEq] at hrun
        subst hrun
        obtain ⟨hall0, hT0, ⟨l0, hl0, hsrc0⟩, -, -⟩ :=
          importance_loop_spec pf lc draw _ _ _ _ _ _ _ _ _ himp (by simp) (by simp)
        rw [List.nil_append] at hl0
        subst hl0
        rw [current_samples_finish]
        by_cases hcond : ((bs0.length : ℤ) < pf.min_samples + 10)
        · rw [if_pos hcond] at hinj
          obtain ⟨-, -, ⟨l2, hl2, hfree2⟩, -⟩ :=
            inject_free_spec map _ fuel _ _ _ _ _ _ _ _ hinj hall0 hT0
          subst hl2
          refine ⟨bs0.map (fun s => { s with weight := s.weight / total }),
            l2.map (fun s => { s with weight := s.weight / total }),
            by rw [List.map_append], ?_, ?_⟩
          · intro s hs
            rcases List.mem_map.mp hs with ⟨a, ha, rfl⟩
            obtain ⟨a0, ha0, hpose⟩ := hsrc0 a ha
            exact ⟨a0, ha0, hpose⟩
          · intro s hs
            rcases List.mem_map.mp hs with ⟨a, ha, rfl⟩
            exact hfree2 a ha
        · rw [if_neg hcond] at hinj
          simp only [Option.some.injEq, Prod.mk.injEq] at hinj
          obtain ⟨rfl, -, rfl⟩ := hinj
          refine ⟨bs0.map (fun s => { s with weight := s.weight / total0 }), [],
            by simp, ?_, by simp⟩
          intro s hs
          rcases List.mem_map.mp hs with ⟨a, ha, rfl⟩
          obtain ⟨a0, ha0, hpose⟩ := hsrc0 a ha
          exact ⟨a0, ha0, hpose⟩
  · -- pf_update_resample_addParticle
    intro nPartToAdd map draw u fuel lc getCluster pf' hrun
    unfold pf_update_resample_addParticle at hrun
    dsimp only at hrun
    split at hrun
    · exact absurd hrun (by simp)
    next st himp =>
      obtain ⟨bs0, tree0, total0⟩ := st
      split at hrun
      · exact absurd hrun (by simp)
      next bs tree total hinj =>
        simp only [Option.some.injEq] at hrun
        subst hrun
        obtain ⟨hall0, hT0, ⟨l0, hl0, hsrc0⟩, -, -⟩ :=
          importance_loop_spec pf lc draw _ _ _ _ _ _ _ _ _ himp (by simp) (by simp)
        rw [List.nil_append] at hl0
        subst hl0
        obtain ⟨-, -, ⟨l2, hl2, hfree2⟩, -⟩ :=
          inject_free_spec map _ fuel _ _ _ _ _ _ _ _ hinj hall0 hT0
        subst hl2
        rw [current_samples_finish]
        refine ⟨bs0.map (fun s => { s with weight := s.weight / total }),
          l2.map (fun s => { s with weight := s.weight / total }),
          by rw [List.map_append], ?_, ?_⟩
        · intro s hs
          rcases List.mem_map.mp hs with ⟨a, ha, rfl⟩
          obtain ⟨a0, ha0, hpose⟩ := hsrc0 a ha
          exact ⟨a0, ha0, hpose⟩
        · intro s hs
          rcases List.mem_map.mp hs with ⟨a, ha, rfl⟩
          exact hfree2 a ha
  · -- pf_update_resample_hyps
    intro map nHyp hyps nParticle draw lc bigauss uth getCluster pf' b hrun
    unfold pf_update_resample_hyps at hrun
    dsimp only at hrun
    split at hrun
    · exact absurd hrun (by simp)
    next st himp =>
      obtain ⟨bs0, tree0, total0⟩ := st
      simp only [Option.some.injEq, Prod.mk.injEq] at hrun
      obtain ⟨hpf', -⟩ := hrun
      subst hpf'
      obtain ⟨hall0, hT0, ⟨l0, hl0, hsrc0⟩, -, -⟩ :=
        importance_loop_spec pf lc draw _ _ _ _ _ _ _ _ _ himp (by simp) (by simp)
      rw [List.nil_append] at hl0
      subst hl0
      obtain ⟨l2, hext, hl2⟩ := hyps_inject_extends map nHyp.toNat
        (resample_hyps_budget pf bs0.length nParticle nHyp).toNat hyps bigauss uth
        (bs0, tree0, total0)
      rw [current_samples_finish, hext, List.map_append]
      refine ⟨_, _, rfl, ?_, ?_⟩
      · intro s hs
        rcases List.mem_map.mp hs with ⟨a, ha, rfl⟩
        obtain ⟨a0, ha0, hpose⟩ := hsrc0 a ha
        exact ⟨a0, ha0, hpose⟩
      · intro s hs
        rcases List.mem_map.mp hs with ⟨a, ha, rfl⟩
        exact (hl2 a ha).2

/-- C7 (amended): `pf_update_resample`, `pf_update_resample_map`, `pf_update_resample_addParticle` and `pf_update_resample_hyps` write only into the scratch set, leave the source set untouched and flip `current_set` exactly once; `pf_update_resample_hyps_2` and `pf_update_resample_hyps_3` also flip exactly once but mutate the source set, contrary to the claim. -/
theorem claim_C7_amended (pf : pf_t) :
    (∀ (nMaxParticles : ℤ) (draw : ℕ → ℕ) (lc : List (pf_vector × ℝ) → ℕ)
        (getCluster : pf_vector → ℕ) (pf' : pf_t),
      pf_update_resample pf nMaxParticles draw lc getCluster = some pf' →
      pf'.sets pf.current_set = pf.sets pf.current_set ∧
        pf'.current_set = pf.current_set + 1) ∧
    (∀ (map : map_t) (draw : ℕ → ℕ) (u : ℕ → ℕ → ℝ × ℝ × ℝ) (fuel : ℕ)
        (lc : List (pf_vector × ℝ) → ℕ) (getCluster : pf_vector → ℕ) (pf' : pf_t),
      pf_update_resample_map pf map draw u fuel lc getCluster = some pf' →
      pf'.sets pf.current_set = pf.sets pf.current_set ∧
        pf'.current_set = pf.current_set + 1) ∧
    (∀ (nPartToAdd : ℤ) (map : map_t) (draw : ℕ → ℕ) (u : ℕ → ℕ → ℝ × ℝ × ℝ) (fuel : ℕ)
        (lc : List (pf_vector × ℝ) → ℕ) (getCluster : pf_vector → ℕ) (pf' : pf_t),
      pf_update_resample_addParticle pf nPartToAdd map draw u fuel lc getCluster = some pf' →
      pf'.sets pf.current_set = pf.sets pf.current_set ∧
        pf'.current_set = pf.current_set + 1) ∧
    (∀ (map : map_t) (nHyp : ℤ) (hyps : ℕ → hyp_t) (nParticle : ℤ) (draw : ℕ → ℕ)
        (lc : List (pf_vector × ℝ) → ℕ) (bigauss : ℕ → ℕ → ℝ → ℝ → ℝ → ℝ × ℝ)
        (uth : ℕ → ℕ → ℝ) (getCluster : pf_vector → ℕ) (pf' : pf_t) (b : ℤ),
      pf_update_resample_hyps pf map nHyp hyps nParticle draw lc bigauss uth getCluster =
        some (pf', b) →
      pf'.sets pf.current_set = pf.sets pf.current_set ∧
        pf'.current_set = pf.current_set + 1) ∧
    (∀ (map : map_t) (nHyp : ℤ) (hyps : ℕ → hyp_t) (over_head : ℤ) (draw : ℕ → ℕ)
        (lc : List (pf_vector × ℝ) → ℕ) (bigauss : ℕ → ℕ → ℝ → ℝ → ℝ → ℝ × ℝ)
        (uth : ℕ → ℕ → ℝ) (getCluster : pf_vector → ℕ) (pf' : pf_t),
      pf_update_resample_hyps_2 pf map nHyp hyps over_head draw lc bigauss uth getCluster =
        some pf' →
      pf'.current_set = pf.current_set + 1) ∧
    (∀ (map : map_t) (nHyp : ℤ) (hyps : ℕ → hyp_t) (draw : ℕ → ℕ)
        (lc lcA : List (pf_vector × ℝ) → ℕ) (bg1 bg2 : ℕ → ℕ → ℝ → ℝ → ℝ → ℝ × ℝ)
        (uth : ℕ → ℕ → ℝ) (growFuel : ℕ) (getCluster : pf_vector → ℕ) (pf' : pf_t),
      pf_update_resample_hyps_3 pf map nHyp hyps draw lc lcA bg1 bg2 uth growFuel
        getCluster = some pf' →
      pf'.current_set = pf.current_set + 1) := by
  refine ⟨?_, ?_, ?_, ?_, ?_, ?_⟩
  · intro nMaxParticles draw lc getCluster pf' hrun
    unfold pf_update_resample at hrun
    dsimp only at hrun
    split at hrun
    · exact absurd hrun (by simp)
    next bs tree total himp =>
      simp only [Option.some.injEq] at hrun
      subst hrun
      exact ⟨finish_resample_source pf getCluster _ _, rfl⟩
  · intro map draw u fuel lc getCluster pf' hrun
    unfold pf_update_resample_map at hrun
    dsimp only at hrun
    split at hrun
    · exact absurd hrun (by simp)
    next st himp =>
      split at hrun
      · exact absurd hrun (by simp)
      next bs tree total hinj =>
        simp only [Option.some.injEq] at hrun
        subst hrun
        exact ⟨finish_resample_source pf getCluster _ _, rfl⟩
  · intro nPartToAdd map draw u fuel lc getCluster pf' hrun
    unfold pf_update_resample_addParticle at hrun
    dsimp only at hrun
    split at hrun
    · exact absurd hrun (by simp)
    next st himp =>
      split at hrun
      · exact absurd hrun (by simp)
      next bs tree total hinj =>
        simp only [Option.some.injEq] at hrun
        subst hrun
        exact ⟨finish_resample_source pf getCluster _ _, rfl⟩
  · intro map nHyp hyps nParticle draw lc bigauss uth getCluster pf' b hrun
    unfold pf_update_resample_hyps at hrun
    dsimp only at hrun
    split at hrun
    · exact absurd hrun (by simp)
    next st himp =>
      simp only [Option.some.injEq, Prod.mk.injEq] at hrun
      obtain ⟨hpf', -⟩ := hrun
      subst hpf'
      exact ⟨finish_resample_source pf getCluster _ _, rfl⟩
  · intro map nHyp hyps over_head draw lc bigauss uth getCluster pf' hrun
    unfold pf_update_resample_hyps_2 at hrun
    dsimp only at hrun
    split at hrun
    · exact absurd hrun (by simp)
    next bs tree total himp =>
      simp only [Option.some.injEq] at hrun
      subst hrun
      rfl
  · intro map nHyp hyps draw lc lcA bg1 bg2 uth growFuel getCluster pf' hrun
    unfold pf_update_resample_hyps_3 at hrun
    dsimp only at hrun
    split at hrun
    · exact absurd hrun (by simp)
    next bs0 treeB0 total0 himp =>
      split at hrun
      · exact absurd hrun (by simp)
      next r hfold =>
        simp only [Option.some.injEq] at hrun
        subst hrun
        rfl

lemma limitC6 : pf_resample_limit pfC6 0 = 0 := by
  unfold pf_resample_limit
  rw [if_pos (by norm_num : (0:ℤ) ≤ 1)]
  norm_num [pfC6]

lemma gxC6_0 : MAP_GXWX mapC6 0 = 1 := by
  unfold MAP_GXWX
  norm_num [mapC6]

lemma gyC6_0 : MAP_GYWY mapC6 0 = 1 := by
  unfold MAP_GYWY
  norm_num [mapC6]

lemma gxC6_m1 : MAP_GXWX mapC6 (-1) = 0 := by
  unfold MAP_GXWX
  norm_num [mapC6]

lemma gyC6_m1 : MAP_GYWY mapC6 (-1) = 0 := by
  unfold MAP_GYWY
  norm_num [mapC6]

lemma notfreeC6 : ¬ map_free_at mapC6 0 0 := by
  unfold map_free_at
  rw [gxC6_0, gyC6_0]
  norm_num [mapC6, MAP_INDEX]

lemma freeC6 : map_free_at mapC6 (-1) (-1) := by
  unfold map_free_at MAP_VALID
  rw [gxC6_m1, gyC6_m1]
  norm_num [mapC6, MAP_INDEX]

lemma candC6 : ∀ t : ℕ, uniform_map_cand mapC6 (uC6 0) t = ⟨-1, -1, 0⟩ := by
  intro t
  unfold uniform_map_cand
  norm_num [uC6, mapC6]

lemma loopC6 : map_free_loop mapC6 (uniform_map_cand mapC6 (uC6 0)) 0 1 =
    some ⟨-1, -1, 0⟩ := by
  rw [show (1:ℕ) = 0 + 1 from rfl, map_free_loop]
  simp only [candC6]
  rw [if_pos freeC6]

lemma impC6 : importance_loop pfC6 lcZ drawZ [⟨⟨0, 0, 0⟩, 1⟩] ((2:ℤ) - 1).toNat 0 [] [] 0 =
    some ([⟨⟨0, 0, 0⟩, 1⟩], [(⟨0, 0, 0⟩, 1)], 1) := by
  rw [show ((2:ℤ) - 1).toNat = 0 + 1 from rfl, importance_loop_succ]
  norm_num [drawZ, lcZ, limitC6]

/-- C6 counterexample: `pf_update_resample_addParticle` copies a source sample sitting on an occupied cell into the new set, so not every sample of the resulting set satisfies the free-cell predicate. -/
theorem claim_C6_counterexample :
    ∃ pf' : pf_t,
      pf_update_resample_addParticle pfC6 1 mapC6 drawZ uC6 1 lcZ getClusterZ = some pf' ∧
      ∃ s ∈ current_samples pf', ¬ map_free_at mapC6 s.pose.v0 s.pose.v1 := by
  have hinj : inject_free_samples mapC6 (fun i => uniform_map_cand mapC6 (uC6 i)) 1 0
      (1:ℤ).toNat ([⟨⟨0, 0, 0⟩, 1⟩], [(⟨0, 0, 0⟩, 1)], 1) =
      some ([⟨⟨0, 0, 0⟩, 1⟩, ⟨⟨-1, -1, 0⟩, 1⟩],
        [(⟨-1, -1, 0⟩, 1), (⟨0, 0, 0⟩, 1)], 2) := by
    rw [show ((1:ℤ)).toNat = 0 + 1 from rfl, inject_free_samples]
    rw [loopC6]
    dsimp only
    rw [inject_free_samples]
    norm_num
  have hrun : pf_update_resample_addParticle pfC6 1 mapC6 drawZ uC6 1 lcZ getClusterZ =
      some (finish_resample pfC6 getClusterZ
        ([(⟨⟨0, 0, 0⟩, 1⟩ : pf_sample), ⟨⟨-1, -1, 0⟩, 1⟩].map
          fun s => { s with weight := s.weight / 2 })
        [(⟨-1, -1, 0⟩, 1), (⟨0, 0, 0⟩, 1)]) := by
    unfold pf_update_resample_addParticle
    dsimp only
    rw [show (pfC6.sets pfC6.current_set).samples = [⟨⟨0, 0, 0⟩, 1⟩] from rfl,
      show pfC6.max_samples - 1 = (2:ℤ) - 1 from rfl, impC6]
    dsimp only
    rw [hinj]
  refine ⟨_, hrun, ⟨⟨⟨0, 0, 0⟩, 1 / 2⟩, ?_, ?_⟩⟩
  · rw [current_samples_finish]
    simp
  · exact notfreeC6

lemma hyp_cand_55 : ∀ j i : ℕ, hyp_cand hypC8 (bigaussZ j i) (uthZ j i) =
    ⟨5, 5, (0 - 0.5) * 2 * Real.pi⟩ := by
  intro j i
  unfold hyp_cand
  norm_num [hypC8, bigaussZ, uthZ]

lemma foldl_id {α β : Type*} (g : β → α → β) (hg : ∀ b a, g b a = b) :
    ∀ (l : List α) (b : β), l.foldl g b = b := by
  intro l
  induction l with
  | nil => intro b; rfl
  | cons a l ih => intro b; rw [List.foldl_cons, hg, ih]

lemma hyps2_inject_C7 (nH nNew : ℕ) (acc : List pf_sample) :
    hyps2_inject mapC8 nH nNew (fun _ => hypC8) bigaussZ uthZ acc = acc := by
  unfold hyps2_inject
  apply foldl_id
  intro b j
  apply foldl_id
  intro b2 i
  dsimp only
  rw [hyp_cand_55 j i]
  rw [if_neg not_free_55]

/-- C7 counterexample: `pf_update_resample_hyps_2` rewrites the source set s weights (3/10 and 7/10 become 1/2 and 1/2), so the source set does not stay unchanged. -/
theorem claim_C7_counterexample :
    ∃ pf' : pf_t,
      pf_update_resample_hyps_2 pfC7 mapC8 1 (fun _ => hypC8) 0 drawZ lcZ bigaussZ uthZ
        getClusterZ = some pf' ∧
      (pf'.sets pfC7.current_set).samples.map pf_sample.weight ≠
        (pfC7.sets pfC7.current_set).samples.map pf_sample.weight := by
  have hrun : pf_update_resample_hyps_2 pfC7 mapC8 1 (fun _ => hypC8) 0 drawZ lcZ bigaussZ
      uthZ getClusterZ = some (finish_resample pfC7_1 getClusterZ [] []) := by
    unfold pf_update_resample_hyps_2
    dsimp only
    rw [hyps2_inject_C7]
    rfl
  refine ⟨_, hrun, ?_⟩
  have hsets : ((finish_resample pfC7_1 getClusterZ [] []).sets pfC7.current_set).samples =
      setC7_A.samples := by
    rw [show pfC7.current_set = pfC7_1.current_set from rfl, finish_resample_source,
      show pfC7_1.sets pfC7_1.current_set = setC7_A from by
        rw [show pfC7_1.sets = Function.update pfC7.sets pfC7.current_set setC7_A from rfl,
          show pfC7_1.current_set = pfC7.current_set from rfl, Function.update_same]]
  rw [hsets]
  show setC7_A.samples.map pf_sample.weight ≠ _
  rw [show setC7_A.samples = [⟨⟨0, 0, 0⟩, 1/(2:ℝ)⟩, ⟨⟨0, 0, 0⟩, 1/(2:ℝ)⟩] from by
    unfold setC7_A
    norm_num [pfC7, set_empty]]
  rw [show (pfC7.sets pfC7.current_set).samples =
    [⟨⟨0, 0, 0⟩, (3:ℝ)/10⟩, ⟨⟨0, 0, 0⟩, (7:ℝ)/10⟩] from rfl]
  intro h
  have h1 := List.head_eq_of_cons_eq h
  norm_num at h1

/-- C1 counterexample: `pf_update_resample_hyps_2` on a filter with `max_samples` = 4 completes (its hard-coded importance bound `max_samples - 1000` is nonpositive, so the importance loop runs zero times), and the resulting current set is empty: the weights sum to 0, not 1, refuting the unconditional claim. -/
theorem claim_C1_counterexample :
    ∃ pf' : pf_t,
      pf_update_resample_hyps_2 pfC7 mapC8 1 (fun _ => hypC8) 0 drawZ lcZ bigaussZ uthZ
        getClusterZ = some pf' ∧
      ¬ weights_normalized (current_samples pf') := by
  have hrun : pf_update_resample_hyps_2 pfC7 mapC8 1 (fun _ => hypC8) 0 drawZ lcZ bigaussZ
      uthZ getClusterZ = some (finish_resample pfC7_1 getClusterZ [] []) := by
    unfold pf_update_resample_hyps_2
    dsimp only
    rw [hyps2_inject_C7]
    rfl
  refine ⟨_, hrun, ?_⟩
  rw [current_samples_finish]
  intro h
  have h2 := h.2
  simp at h2
